import Mathlib

/-!
# shsh: a verification development for the parser and the execution engine

Shallow embedding of `src/parser.c` and `src/shell.c`.

* A C string (`char *`) is the list of its characters before the terminating
  NUL (`CString`); a NULL-terminated `char **` is the list of its entries.
* A nullable pointer is an `Option`.
* Loops that walk a `char **` are written as recursion on the remaining
  entries.  `parse_line` walks its buffer with one pointer and is written as
  recursion on the remaining characters; the two passes of `process_tokens`
  read `*s` and `*(s + 1)` and are written with an explicit index into the
  token and a step budget, every read being checked against the token's
  extent.
* Recursion that is not structural carries a bound (`fuel`, `rounds`, `steps`)
  that the top-level function sets large enough.
-/

namespace Shsh

/-! ## Data model -/

/-- A C string: the characters before the terminating NUL. -/
abbrev CString := List Char

/-- Modelled from the spec: the header with the `BUILTIN_*` values is not part
of the sources; `is_builtin` returns 0 for an external program, so the four
tags are distinct non-zero integers. -/
def BUILTIN_CD : Nat := 1

/-- Modelled from the spec: see `BUILTIN_CD`. -/
def BUILTIN_EXIT : Nat := 2

/-- Modelled from the spec: see `BUILTIN_CD`. -/
def BUILTIN_SET : Nat := 3

/-- Modelled from the spec: see `BUILTIN_CD`. -/
def BUILTIN_UNSET : Nat := 4

/-- The `simple_command` record: redirection targets `in`, `out`, `err`
(nullable), the argument vector `tokens` and the `builtin` tag. -/
structure simple_command where
  inp : Option CString
  out : Option CString
  err : Option CString
  tokens : List CString
  builtin : Nat
deriving DecidableEq, Repr

/-- The `command` record: `scmd` (nullable), the field `oper`, and the two
nullable children `cmd1`, `cmd2`.  The record comes from `malloc` and `oper` is
written only for operator nodes, by `strncpy(cmd->oper, tokens[i], 2)`: the
field holds the characters that this call writes, at most the first two
characters of the operator token.  The call writes a terminating NUL only when
the token has fewer than two characters; after two written characters (`&&`,
`||`) the memory that follows was never written, and what `strcmp` reads there
is a parameter of the engine (`World.oper_tail`, `read_oper`).  For a leaf
`oper` is never written nor read and is represented by the empty list. -/
inductive command where
  | mk (scmd : Option simple_command) (oper : List Char) (cmd1 cmd2 : Option command)
deriving Repr

/-- Field `scmd`. -/
def command.scmd : command → Option simple_command
  | .mk s _ _ _ => s

/-- Field `oper`. -/
def command.oper : command → CString
  | .mk _ o _ _ => o

/-- Field `cmd1`. -/
def command.cmd1 : command → Option command
  | .mk _ _ l _ => l

/-- Field `cmd2`. -/
def command.cmd2 : command → Option command
  | .mk _ _ _ r => r

/-- A Leaf: `scmd` set, both children NULL. -/
def Leaf (s : simple_command) : command := .mk (some s) [] none none

/-- An Operator node: `scmd` NULL, operator text and two nullable children. -/
def Operator (op : CString) (l r : Option command) : command := .mk none op l r

/-! ## parser.c: token classification -/

/-- `is_operator` (parser.c:11-21). -/
def is_operator (token : CString) : Bool :=
  token = ['|'] || token = ['&'] || token = [';'] ||
    token = ['|', '|'] || token = ['&', '&']

/-- `is_builtin` (parser.c:24-34). -/
def is_builtin (token : CString) : Nat :=
  if token = ['c', 'd'] then BUILTIN_CD
  else if token = ['e', 'x', 'i', 't'] then BUILTIN_EXIT
  else if token = ['s', 'e', 't'] then BUILTIN_SET
  else if token = ['u', 'n', 's', 'e', 't'] then BUILTIN_UNSET
  else 0

/-- `is_complex_command` (parser.c:56-65). -/
def is_complex_command : List CString → Bool
  | [] => false
  | t :: ts => if is_operator t then true else is_complex_command ts

/-- The four redirection operators tested by `extract_redirections`
(parser.c:155-158). -/
def is_redirection (token : CString) : Bool :=
  token = ['<'] || token = ['>'] || token = ['2', '>'] || token = ['&', '>']

/-! ## parser.c: extract_redirections -/

/-- One iteration of the first loop of `extract_redirections`
(parser.c:108-145) at token `t` with `nxt = tokens[i+1]`: the four `if`s in
source order.  `none` is `return -1`; otherwise the updated record and the
`skip` flag. -/
def redirection_step (t : CString) (nxt : Option CString) (cmd : simple_command) :
    Option (simple_command × Bool) :=
  let r1 : Option (simple_command × Bool) :=
    if t = ['>'] then
      match nxt with
      | none => none
      | some x => some ({ cmd with out := some x }, true)
    else some (cmd, false)
  let r2 : Option (simple_command × Bool) :=
    match r1 with
    | none => none
    | some (cmd, skip) =>
      if t = ['<'] then
        match nxt with
        | none => none
        | some x => some ({ cmd with inp := some x }, true)
      else some (cmd, skip)
  let r3 : Option (simple_command × Bool) :=
    match r2 with
    | none => none
    | some (cmd, skip) =>
      if t = ['2', '>'] then
        match nxt with
        | none => none
        | some x => some ({ cmd with err := some x }, true)
      else some (cmd, skip)
  match r3 with
  | none => none
  | some (cmd, skip) =>
    if t = ['&', '>'] then
      match nxt with
      | none => none
      | some x => some ({ cmd with out := some x, err := some x }, true)
    else some (cmd, skip)

/-- First loop of `extract_redirections` (parser.c:106-148) on the entries
from `tokens[i]` on.  `none` is `return -1`. -/
def extract_scan : List CString → simple_command → Option simple_command
  | [], cmd => some cmd
  | [t], cmd =>
    match redirection_step t none cmd with
    | none => none
    | some (cmd, _) => some cmd
  | t :: n :: rest, cmd =>
    match redirection_step t (some n) cmd with
    | none => none
    | some (cmd, skip) =>
      if skip then extract_scan rest cmd else extract_scan (n :: rest) cmd

/-- Second loop of `extract_redirections` (parser.c:152-164): the entries
copied to `cmd->tokens`.  A redirection operator advances by two entries. -/
def extract_copy : List CString → List CString
  | [] => []
  | [t] => if is_redirection t then [] else [t]
  | t :: n :: rest =>
    if is_redirection t then extract_copy rest else t :: extract_copy (n :: rest)

/-- `extract_redirections` (parser.c:101-167).  `none` is the return value -1,
`some cmd` is the return value 0 with the record as left by the two loops. -/
def extract_redirections (tokens : List CString) (cmd : simple_command) :
    Option simple_command :=
  match extract_scan tokens cmd with
  | none => none
  | some cmd => some { cmd with tokens := extract_copy tokens }

/-! ## parser.c: construct_command -/

/-- The `while` loop of the complex branch of `construct_command`
(parser.c:202-210): the entries before the first operator (`t1`, after
`tokens[i] = NULL`), the operator entry, and the entries after it (`t2`). -/
def split_operator : List CString → Option (List CString × CString × List CString)
  | [] => none
  | t :: ts =>
    if is_operator t then some ([], t, ts)
    else
      match split_operator ts with
      | none => none
      | some (l, o, r) => some (t :: l, o, r)

/-- `construct_command` (parser.c:170-218) with a bound on the recursion
depth.  `none` is the NULL return value.  For an operator node `oper` receives
the characters copied by `strncpy(cmd->oper, tokens[i], 2)`, `op.take 2`, with
no terminator after two characters (see `command`). -/
def construct_aux : Nat → List CString → Option command
  | 0, _ => none
  | fuel + 1, tokens =>
    match tokens with
    | [] => none
    | t0 :: _ =>
      if !is_complex_command tokens then
        let scmd : simple_command :=
          { inp := none, out := none, err := none, tokens := [],
            builtin := is_builtin t0 }
        match extract_redirections tokens scmd with
        | none => none
        | some s => some (command.mk (some s) [] none none)
      else
        match split_operator tokens with
        | none => none
        | some (t1, op, t2) =>
          some (command.mk none (op.take 2) (construct_aux fuel t1) (construct_aux fuel t2))

/-- `construct_command` (parser.c:170-218).  Each recursive call receives
strictly fewer entries, so a depth of `tokens.length` is never exceeded. -/
def construct_command (tokens : List CString) : Option command :=
  construct_aux tokens.length tokens

/-! ## parser.c: parse_line -/

/-- The NUL character that terminates a C string. -/
def NUL : Char := Char.ofNat 0

/-- The delimiter test `*line == ' ' || *line == '\t' || *line == '\n'`
(parser.c:76, 89-90). -/
def is_delimiter (c : Char) : Bool :=
  c = ' ' || c = '\t' || c = '\n'

/-- The loop `while (*line == ' ' || ...) *line++ = '\0';` (parser.c:76-78):
the buffer from the first non-delimiter on. -/
def skip_delimiters : List Char → List Char
  | [] => []
  | c :: rest => if is_delimiter c then skip_delimiters rest else c :: rest

/-- The inner loop of `parse_line` (parser.c:89-96) started with `line` at the
head of the given buffer and the flag `in_str`.  Returns the characters passed
over (the text of the token: the buffer is cut at the position where the loop
stops, either the terminator or a delimiter that the next round overwrites
with NUL), the buffer from the stop position on, and the flag. -/
def scan_token : List Char → Bool → List Char × List Char × Bool
  | [], in_str => ([], [], in_str)
  | [c], in_str =>
    if c = NUL || is_delimiter c then ([], [c], in_str)
    else ([c], [], if c = '"' then !in_str else in_str)
  | c :: n :: rest, in_str =>
    if c = NUL || is_delimiter c then ([], c :: n :: rest, in_str)
    else
      let in_str := if c = '"' then !in_str else in_str
      if n = ' ' && in_str then
        let r := scan_token rest in_str
        (c :: n :: r.1, r.2.1, r.2.2)
      else
        let r := scan_token (n :: rest) in_str
        (c :: r.1, r.2.1, r.2.2)

/-- The outer loop of `parse_line` (parser.c:74-97) with a bound on the
number of rounds; `in_str` is declared before the loop (parser.c:72) and is
carried from one round to the next. -/
def parse_loop : Nat → List Char → Bool → List CString
  | 0, _, _ => []
  | rounds + 1, line, in_str =>
    match line with
    | [] => []
    | c :: _ =>
      if c = NUL then []
      else
        match skip_delimiters line with
        | [] => []
        | c :: rest =>
          if c = NUL then []
          else
            let r := scan_token (c :: rest) in_str
            r.1 :: parse_loop rounds r.2.1 r.2.2

/-- `parse_line` (parser.c:68-99): the tokens stored in `tokens`, as C strings.
Every round passes over at least one character, so `line.length` rounds are
never exceeded. -/
def parse_line (line : CString) : List CString :=
  parse_loop (line.length + 1) line false

/-! ## parser.c: process_tokens -/

/-- Result of a loop over a C string: a value, or the reason it has none. -/
inductive Outcome (α : Type) where
  | ok (a : α)
  | read_out_of_range
  | write_out_of_range
  | out_of_steps
deriving DecidableEq, Repr

/-- The character `token[i]`: a character of the string, the terminating NUL
at index `token.length`, and nothing beyond. -/
def char_at (token : CString) (i : Nat) : Option Char :=
  (token ++ [NUL])[i]?

/-- The `switch (*(s + 1))` of the first pass (parser.c:299-330): the
character stored for a recognised escape, `none` for the `default` case. -/
def escape_value (c : Char) : Option Char :=
  if c = '"' then some '"'
  else if c = 'a' then some (Char.ofNat 7)
  else if c = 'b' then some (Char.ofNat 8)
  else if c = 'f' then some (Char.ofNat 12)
  else if c = 'n' then some '\n'
  else if c = 'r' then some '\r'
  else if c = 't' then some '\t'
  else if c = 'v' then some (Char.ofNat 11)
  else if c = '\\' then some '\\'
  else none

/-- The `while (*s)` loop of the first pass (parser.c:296-336) at read index
`s`, with `d` the characters written so far.  The writes go to the same buffer
at an index that never exceeds `s`, so every read sees the original text. -/
def dequote_loop (token : CString) : Nat → Nat → List Char → Outcome CString
  | 0, _, _ => .out_of_steps
  | steps + 1, s, d =>
    match char_at token s with
    | none => .read_out_of_range
    | some c =>
      if c = NUL then .ok d
      else if c = '\\' then
        match char_at token (s + 1) with
        | none => .read_out_of_range
        | some e =>
          match escape_value e with
          | some x => dequote_loop token steps (s + 2) (d ++ [x])
          | none => dequote_loop token steps (s + 1) d
      else if c ≠ '"' then dequote_loop token steps (s + 1) (d ++ [c])
      else dequote_loop token steps (s + 1) d

/-- First pass of `process_tokens` on one token (parser.c:294-337). -/
def dequote (token : CString) : Outcome CString :=
  dequote_loop token (token.length + 1) 0 []

/-- `VALID_VAR_BEGIN` (parser.c:284). -/
def VALID_VAR_BEGIN (a : Char) : Bool := a.isAlpha || a = '_'

/-- `VALID_VAR` (parser.c:285). -/
def VALID_VAR (a : Char) : Bool := a.isAlphanum || a = '_'

/-- The process environment as seen by `getenv`. -/
abbrev Env := CString → Option CString

/-- The loop `while (VALID_VAR(*(s + 1))) *v++ = *(s++ + 1);`
(parser.c:356-357) with `v` the characters stored in `varname[128]` so far.
Returns the final `s` and the captured characters. -/
def capture_loop (token : CString) : Nat → Nat → List Char → Outcome (Nat × List Char)
  | 0, _, _ => .out_of_steps
  | steps + 1, s, v =>
    match char_at token (s + 1) with
    | none => .read_out_of_range
    | some c =>
      if VALID_VAR c then
        if v.length < 128 then capture_loop token steps (s + 1) (v ++ [c])
        else .write_out_of_range
      else .ok (s, v)

/-- The `while (*s)` loop of the second pass (parser.c:348-386) at read index
`s`, with `d` the characters written to `newtok[1024]` so far. -/
def expand_loop (env : Env) (token : CString) : Nat → Nat → List Char → Outcome CString
  | 0, _, _ => .out_of_steps
  | steps + 1, s, d =>
    match char_at token s with
    | none => .read_out_of_range
    | some c =>
      if c = NUL then
        if d.length < 1024 then .ok d else .write_out_of_range
      else if c = '$' then
        match char_at token (s + 1) with
        | none => .read_out_of_range
        | some b =>
          if VALID_VAR_BEGIN b then
            match capture_loop token (token.length + 1) s [] with
            | .ok (s1, varname) =>
              if varname.length < 128 then
                match env varname with
                | some value =>
                  if d.length + value.length < 1024 then
                    expand_loop env token steps (s1 + 1) (d ++ value)
                  else .write_out_of_range
                | none => expand_loop env token steps (s1 + 1) d
              else .write_out_of_range
            | .read_out_of_range => .read_out_of_range
            | .write_out_of_range => .write_out_of_range
            | .out_of_steps => .out_of_steps
          else expand_loop env token steps (s + 1) d
      else if c = '\\' then
        match char_at token (s + 1) with
        | none => .read_out_of_range
        | some e =>
          if e = '$' || e = ' ' || e = '\\' then
            if d.length < 1024 then expand_loop env token steps (s + 2) (d ++ [e])
            else .write_out_of_range
          else expand_loop env token steps (s + 1) d
      else
        if d.length < 1024 then expand_loop env token steps (s + 1) (d ++ [c])
        else .write_out_of_range

/-- One iteration of the second loop of `process_tokens` (parser.c:341-388):
for a token without `$` nothing is done and the result is the token itself;
otherwise the result is the text that the iteration writes to the block-scoped
buffer `newtok`.  The iteration then stores the address of `newtok` in
`tokens[i]` (parser.c:388); what the token reads as afterwards is given by
`share_newtok`. -/
def expand_token (env : Env) (token : CString) : Outcome CString :=
  if token.contains '$' then expand_loop env token (token.length + 1) 0 []
  else .ok token

/-- Collects the results of a pass over all tokens; the first failure wins. -/
def collect {α : Type} : List (Outcome α) → Outcome (List α)
  | [] => .ok []
  | .ok a :: rest =>
    match collect rest with
    | .ok as => .ok (a :: as)
    | .read_out_of_range => .read_out_of_range
    | .write_out_of_range => .write_out_of_range
    | .out_of_steps => .out_of_steps
  | .read_out_of_range :: _ => .read_out_of_range
  | .write_out_of_range :: _ => .write_out_of_range
  | .out_of_steps :: _ => .out_of_steps

/-- The text that `newtok` holds when the second loop of `process_tokens` is
over: the text written by the last iteration that expanded a token (`ts` are
the tokens after the first pass, `us` the results of the iterations); `none`
when no token contains `$`.  The `newtok` of every iteration is the same
block-scoped storage. -/
def newtok_at_end (ts us : List CString) : Option CString :=
  (((ts.zip us).filter (fun p => p.1.contains '$')).map Prod.snd).getLast?

/-- What the entries of `tokens` read as when `process_tokens` returns: a token
without `$` is its own text in the line buffer; every token with `$` was set
to point to `newtok` (parser.c:388) and reads as the text that `newtok` holds
at the end, the same for all of them. -/
def share_newtok (ts us : List CString) : List CString :=
  (ts.zip us).map
    (fun p => if p.1.contains '$' then (newtok_at_end ts us).getD p.2 else p.2)

/-- `process_tokens` (parser.c:288-390): the first pass over every token, then
the second pass over every token.  The result is what the entries of `tokens`
read as at the moment the function returns.  The lifetime of `newtok` has
ended by then: for the tokens that point to it this text is what its storage
still holds, and nothing keeps later calls from overwriting it. -/
def process_tokens (env : Env) (tokens : List CString) : Outcome (List CString) :=
  match collect (tokens.map dequote) with
  | .ok ts =>
    match collect (ts.map (expand_token env)) with
    | .ok us => .ok (share_newtok ts us)
    | .read_out_of_range => .read_out_of_range
    | .write_out_of_range => .write_out_of_range
    | .out_of_steps => .out_of_steps
  | .read_out_of_range => .read_out_of_range
  | .write_out_of_range => .write_out_of_range
  | .out_of_steps => .out_of_steps

/-! ## shell.c: the execution engine

The engine is modelled for one input line.  The results of the system calls
and the contents of memory that the code reads without having written it are
parameters (`World`); every call that succeeds is logged in a trace of events.
`wait` collects any terminated child of the caller: the child forked last, or
one that an earlier `cmd &` left un-waited (`World.wait_other`).  A forked
child is evaluated to its end at the point of the `fork`, its events are
logged at that point: the interleaving of processes that run at the same time
(both sides of `|`, the left side of `&`) is not part of the model. -/

/-- `EXIT_FAILURE` of the C library. -/
def EXIT_FAILURE : Int := 1

/-- What `wait`/`waitpid` report about a terminated child: a normal exit with
a status (`WIFEXITED`, `WEXITSTATUS`) or a termination by a signal. -/
inductive WaitStatus where
  | exited (status : Int)
  | signaled (sig : Int)
deriving DecidableEq, Repr

/-- A logged action: `pipe()` created a pipe, `fork()` created a process, a
redirection was applied to a standard descriptor, `execvp` was called on an
argument vector (a command was launched), `incomplete command` was reported,
a builtin handler (`execute_cd`, `execute_set`, `execute_unset`) was called on
an argument vector. -/
inductive Event where
  | pipe
  | fork
  | redirect (fd : Nat) (path : CString)
  | exec (argv : List CString)
  | incomplete
  | builtin (kind : Nat) (argv : List CString)
deriving DecidableEq, Repr

/-- The results of the system calls, given the events so far: whether
`pipe`, `fork`, `wait` or the `dup2` onto a pipe end fails; the value
returned when the `open`/`dup2` of a redirection fails (`none` when both
succeed); how a process ends once it has called `execvp` on an argument
vector (the program's own termination, or the exit with `EXIT_FAILURE` after a
failed `execvp`, shell.c:197-201); the value a builtin handler returns
(the handlers act on the working directory and the environment of the calling
process, which are not part of the model); the status of another child that a
successful `wait()` collects in place of the child forked last (`none` when it
collects the child forked last); and the characters, up to the first NUL, of
the never-written memory that follows the two characters of an unterminated
`oper`. -/
structure World where
  pipe_fails : List Event → Bool
  fork_fails : List Event → Bool
  wait_fails : List Event → Bool
  dup2_fails : List Event → Bool
  redirect_fails : List Event → Nat → CString → Option Int
  program : List Event → List CString → WaitStatus
  builtin_result : List Event → Nat → List CString → Int
  wait_other : List Event → Option WaitStatus
  oper_tail : List Event → List Char

/-- What a function call does to the process that runs it: it returns a value
to its caller, or the process ends inside the call (`execvp`, `exit`). -/
inductive Flow where
  | returns (code : Int)
  | terminates (status : WaitStatus)
deriving DecidableEq, Repr

/-- One redirection of `execute_nonbuiltin` (shell.c:213-221, 223-231,
233-241): nothing to do for a NULL path; otherwise `some v` when `open` or
`dup2` fails and the function returns `v`, else the redirection is logged. -/
def apply_redirection (w : World) (fd : Nat) (path : Option CString) (tr : List Event) :
    Option Int × List Event :=
  match path with
  | none => (none, tr)
  | some p =>
    match w.redirect_fails tr fd p with
    | some v => (some v, tr)
    | none => (none, tr ++ [Event.redirect fd p])

/-- `execute_nonbuiltin` (shell.c:208-245) followed by `execute_command`
(shell.c:195-202): the redirections of stdin, stdout, stderr in this order,
then `execvp`, which ends the process. -/
def execute_nonbuiltin (w : World) (s : simple_command) (tr : List Event) :
    Flow × List Event :=
  match apply_redirection w 0 s.inp tr with
  | (some v, tr) => (Flow.returns v, tr)
  | (none, tr) =>
    match apply_redirection w 1 s.out tr with
    | (some v, tr) => (Flow.returns v, tr)
    | (none, tr) =>
      match apply_redirection w 2 s.err tr with
      | (some v, tr) => (Flow.returns v, tr)
      | (none, tr) =>
        (Flow.terminates (w.program tr s.tokens), tr ++ [Event.exec s.tokens])

/-- How a forked child ends that runs `execute_complex_command(...);
exit(EXIT_FAILURE);` (shell.c:334-335, 352-353, 383-384, 397-398, 424-425,
453-454): with the status of `exit(EXIT_FAILURE)` when the call returns. -/
def child_status : Flow → WaitStatus
  | .returns _ => .exited EXIT_FAILURE
  | .terminates st => st

/-- `WIFEXITED(status) ? WEXITSTATUS(status) : EXIT_FAILURE`
(shell.c:404, 459). -/
def exit_code : WaitStatus → Int
  | .exited st => st
  | .signaled _ => EXIT_FAILURE

/-- The C string that `strcmp(c->oper, ...)` reads (shell.c:305, 369, 407,
441, 443): the written characters when `strncpy` terminated them (fewer than
two), otherwise the two written characters followed by whatever the memory
after them holds. -/
def read_oper (w : World) (tr : List Event) (oper : List Char) : CString :=
  if oper.length < 2 then oper else oper ++ w.oper_tail tr

/-- The status stored by a successful `wait(&status)` (shell.c:273, 430) when
the child forked last ends with `st`. -/
def wait_status (w : World) (tr : List Event) (st : WaitStatus) : WaitStatus :=
  match w.wait_other tr with
  | some other => other
  | none => st

/-- `execute_complex_command` (shell.c:290-464) run by the current process on
the node `c` after the events `tr`.  `k` is how the current process ends when
this call returns (used for a child of a pipeline whose `dup2` fails: it
returns from the call, shell.c:328-331, 346-349). -/
def execute_complex_command (w : World) (k : WaitStatus) :
    command → List Event → Flow × List Event
  | .mk (some s) _ _ _, tr =>
    if s.builtin ≠ 0 then (Flow.returns 0, tr)
    else
      match execute_nonbuiltin w s tr with
      | (Flow.returns _, tr) => (Flow.returns 0, tr)
      | (Flow.terminates st, tr) => (Flow.terminates st, tr)
  | .mk none oper cmd1 cmd2, tr =>
    if read_oper w tr oper = ['|'] then
      match cmd1, cmd2 with
      | some l, some r =>
        if w.pipe_fails tr then (Flow.returns EXIT_FAILURE, tr)
        else if w.fork_fails (tr ++ [Event.pipe]) then
          (Flow.returns EXIT_FAILURE, tr ++ [Event.pipe])
        else
          let c1 : WaitStatus × List Event :=
            if w.dup2_fails (tr ++ [Event.pipe, Event.fork]) then
              (k, tr ++ [Event.pipe, Event.fork])
            else
              let r1 := execute_complex_command w (.exited EXIT_FAILURE) l
                (tr ++ [Event.pipe, Event.fork])
              (child_status r1.1, r1.2)
          if w.fork_fails c1.2 then (Flow.returns EXIT_FAILURE, c1.2)
          else
            let c2 : WaitStatus × List Event :=
              if w.dup2_fails (c1.2 ++ [Event.fork]) then (k, c1.2 ++ [Event.fork])
              else
                let r2 := execute_complex_command w (.exited EXIT_FAILURE) r
                  (c1.2 ++ [Event.fork])
                (child_status r2.1, r2.2)
            match c1.1, c2.1 with
            | .exited _, .exited st2 => (Flow.returns st2, c2.2)
            | _, _ => (Flow.returns EXIT_FAILURE, c2.2)
      | _, _ => (Flow.returns EXIT_FAILURE, tr ++ [Event.incomplete])
    else if read_oper w tr oper = ['&'] then
      match cmd1 with
      | none => (Flow.returns EXIT_FAILURE, tr ++ [Event.incomplete])
      | some l =>
        if w.fork_fails tr then (Flow.returns EXIT_FAILURE, tr)
        else
          let r1 := execute_complex_command w (.exited EXIT_FAILURE) l (tr ++ [Event.fork])
          match cmd2 with
          | none => (Flow.returns 0, r1.2)
          | some r =>
            if w.fork_fails r1.2 then (Flow.returns EXIT_FAILURE, r1.2)
            else
              let r2 := execute_complex_command w (.exited EXIT_FAILURE) r
                (r1.2 ++ [Event.fork])
              (Flow.returns (exit_code (child_status r2.1)), r2.2)
    else if read_oper w tr oper = [';'] || read_oper w tr oper = ['&', '&'] ||
        read_oper w tr oper = ['|', '|'] then
      match cmd1, cmd2 with
      | some l, some r =>
        if w.fork_fails tr then (Flow.returns EXIT_FAILURE, tr)
        else
          let r1 := execute_complex_command w (.exited EXIT_FAILURE) l (tr ++ [Event.fork])
          if w.wait_fails r1.2 then (Flow.returns EXIT_FAILURE, r1.2)
          else
            match wait_status w r1.2 (child_status r1.1) with
            | .signaled _ => (Flow.returns EXIT_FAILURE, r1.2)
            | .exited status =>
              if read_oper w tr oper = ['&', '&'] ∧ status ≠ 0 then
                (Flow.returns status, r1.2)
              else if read_oper w tr oper = ['|', '|'] ∧ status = 0 then
                (Flow.returns status, r1.2)
              else if w.fork_fails r1.2 then (Flow.returns EXIT_FAILURE, r1.2)
              else
                let r2 := execute_complex_command w (.exited EXIT_FAILURE) r
                  (r1.2 ++ [Event.fork])
                (Flow.returns (exit_code (child_status r2.1)), r2.2)
      | _, _ => (Flow.returns EXIT_FAILURE, tr ++ [Event.incomplete])
    else (Flow.returns 0, tr)

/-- `execute_simple_command` (shell.c:251-283) run by the current process
after the events `tr`: the `switch` on the builtin tag, then the fork of a
child that runs `execute_nonbuiltin`.  A child whose redirection fails returns
the value `v` to `main`, which leaves its loop and ends the process with status
0 when `v` is -1 (shell.c:72-74, 85) and goes on as a shell otherwise; `k` is
how such a process ends. -/
def execute_simple_command (w : World) (k : WaitStatus) (cmd : simple_command)
    (tr : List Event) : Flow × List Event :=
  if cmd.builtin = BUILTIN_CD then
    (Flow.returns (w.builtin_result tr BUILTIN_CD cmd.tokens),
      tr ++ [Event.builtin BUILTIN_CD cmd.tokens])
  else if cmd.builtin = BUILTIN_SET then
    (Flow.returns (w.builtin_result tr BUILTIN_SET cmd.tokens),
      tr ++ [Event.builtin BUILTIN_SET cmd.tokens])
  else if cmd.builtin = BUILTIN_UNSET then
    (Flow.returns (w.builtin_result tr BUILTIN_UNSET cmd.tokens),
      tr ++ [Event.builtin BUILTIN_UNSET cmd.tokens])
  else if cmd.builtin = BUILTIN_EXIT then (Flow.terminates (WaitStatus.exited 0), tr)
  else if w.fork_fails tr then (Flow.returns EXIT_FAILURE, tr)
  else
    let r := execute_nonbuiltin w cmd (tr ++ [Event.fork])
    let st : WaitStatus :=
      match r.1 with
      | .terminates st => st
      | .returns v => if v = -1 then WaitStatus.exited 0 else k
    if w.wait_fails r.2 then (Flow.returns EXIT_FAILURE, r.2)
    else (Flow.returns (exit_code (wait_status w r.2 st)), r.2)

/-- The dispatch of `main` on the tree of a line (shell.c:69-81):
`execute_simple_command` when `scmd` is set (the line is one Leaf),
`execute_complex_command` otherwise. -/
def execute_line (w : World) (k : WaitStatus) (cmd : command) (tr : List Event) :
    Flow × List Event :=
  match cmd.scmd with
  | some s => execute_simple_command w k s tr
  | none => execute_complex_command w k cmd tr

/-! ## Reference notions used to state the properties of the parser -/

/-- Left-to-right scan of a token run that skips the token following each
redirection operator: `true` when some redirection operator is reached with no
token after it. -/
def dangling_redirection : List CString → Bool
  | [] => false
  | [t] => is_redirection t
  | t :: n :: rest =>
    if is_redirection t then dangling_redirection rest
    else dangling_redirection (n :: rest)

/-- A syntactic item of an operator-free token run: a plain argument, or a
redirection operator together with its target. -/
inductive Item where
  | arg (w : CString)
  | redirect (op target : CString)
deriving DecidableEq, Repr

/-- The tokens an item is written with. -/
def Item.toks : Item → List CString
  | .arg w => [w]
  | .redirect op target => [op, target]

/-- The arguments an item contributes: a redirection pair contributes none. -/
def Item.args : Item → List CString
  | .arg w => [w]
  | .redirect _ _ => []

/-- Well-formed item of an operator-free run: an argument is neither a
redirection operator nor a control operator; a redirection pair starts with a
redirection operator and its target is not a control operator. -/
def Item.wf : Item → Bool
  | .arg w => !is_redirection w && !is_operator w
  | .redirect op target => is_redirection op && !is_operator target

/-- The maximal runs of characters other than space, tab and newline of a
line, in their order of occurrence. -/
def maximal_runs (line : List Char) : List (List Char) :=
  (line.splitOnP is_delimiter).filter (fun w => !w.isEmpty)

/-- The escape characters recognised after a backslash by the de-quote pass
and the single character each pair denotes: quote, BEL, BS, FF, LF, CR, TAB,
VT, backslash. -/
def escape_table : List (Char × Char) :=
  [('"', '"'), ('a', Char.ofNat 7), ('b', Char.ofNat 8), ('f', Char.ofNat 12),
   ('n', Char.ofNat 10), ('r', Char.ofNat 13), ('t', Char.ofNat 9),
   ('v', Char.ofNat 11), ('\\', '\\')]

/-- Pairing the backslashes of a token from left to right, each backslash is
immediately followed by a recognised escape character. -/
def escapes_recognised : CString → Bool
  | [] => true
  | [c] => c ≠ '\\'
  | c :: e :: rest =>
    if c = '\\' then (escape_table.lookup e).isSome && escapes_recognised rest
    else escapes_recognised (e :: rest)

/-- A lexical item of a token: a bare double quote, a backslash pair, or any
other character. -/
inductive Lexeme where
  | quote
  | escape (e : Char)
  | plain (c : Char)
deriving DecidableEq, Repr

/-- The characters a lexeme is written with. -/
def Lexeme.text : Lexeme → List Char
  | .quote => ['"']
  | .escape e => ['\\', e]
  | .plain c => [c]

/-- The characters a lexeme stands for: nothing for a bare quote, the denoted
character for a backslash pair, the character itself otherwise. -/
def Lexeme.value : Lexeme → List Char
  | .quote => []
  | .escape e => (escape_table.lookup e).toList
  | .plain c => [c]

/-- Well-formed lexeme: the escape character is a recognised one; a plain
character is neither a quote, nor a backslash, nor NUL. -/
def Lexeme.wf : Lexeme → Bool
  | .quote => true
  | .escape e => (escape_table.lookup e).isSome
  | .plain c => c ≠ '"' && c ≠ '\\' && c ≠ NUL

/-- No two adjacent characters of the text are both spaces. -/
def no_adjacent_spaces : List Char → Bool
  | [] => true
  | [_] => true
  | a :: b :: rest => !(a = ' ' && b = ' ') && no_adjacent_spaces (b :: rest)

/-- A world in which no system call fails, the program `false` exits with
status 1, every other program exits with status 0, every builtin handler
returns 0, `wait` collects the child forked last and the memory after an
unterminated `oper` starts with a zero byte. -/
def calm_world : World where
  pipe_fails := fun _ => false
  fork_fails := fun _ => false
  wait_fails := fun _ => false
  dup2_fails := fun _ => false
  redirect_fails := fun _ _ _ => none
  program := fun _ argv =>
    if argv.head? = some "false".toList then WaitStatus.exited 1 else WaitStatus.exited 0
  builtin_result := fun _ _ _ => 0
  wait_other := fun _ => none
  oper_tail := fun _ => []

/-- The world `calm_world`, except that the byte after the two characters of an
unterminated `oper` is the character `x`. -/
def stray_byte_world : World :=
  { calm_world with oper_tail := fun _ => ['x'] }

/-- The world `calm_world`, except that an earlier `cmd &` has left a child
that ended with status 0 and was never waited for: it is the child that every
`wait` collects. -/
def stale_child_world : World :=
  { calm_world with wait_other := fun _ => some (WaitStatus.exited 0) }

/-- An environment in which `A` is set to `1`, `B` to `2` and nothing else. -/
def env_ab : Env := fun n =>
  if n = ['A'] then some ['1'] else if n = ['B'] then some ['2'] else none

/-- The simple command with the given argument vector, no redirection and no
builtin tag. -/
def external (argv : List CString) : simple_command :=
  { inp := none, out := none, err := none, tokens := argv, builtin := 0 }

/-- An environment in which only `HOME` is set, to `/root`. -/
def env_home : Env := fun n => if n = "HOME".toList then some "/root".toList else none

/-- The first pass of `process_tokens` (parser.c:296-336) seen on the
characters that remain to be read: the characters the loop writes from there
on.  The end of the list is the terminating NUL. -/
def dequote_ref : List Char → List Char
  | [] => []
  | [c] =>
    if c = NUL then []
    else if c = '\\' then []
    else if c ≠ '"' then [c]
    else []
  | c :: e :: rest =>
    if c = NUL then []
    else if c = '\\' then
      match escape_value e with
      | some x => x :: dequote_ref rest
      | none => dequote_ref (e :: rest)
    else if c ≠ '"' then c :: dequote_ref (e :: rest)
    else dequote_ref (e :: rest)

/-- The left-to-right pairing of the backslashes of a text ends exactly at the
end of the text: a backslash followed by a recognised escape character takes
that character with it, any other backslash stands alone, and the last
character is not a backslash still waiting for its escape character. -/
def pairing_complete : List Char → Bool
  | [] => true
  | [c] => c ≠ '\\'
  | c :: e :: rest =>
    if c = '\\' then
      if (escape_table.lookup e).isSome then pairing_complete rest
      else pairing_complete (e :: rest)
    else pairing_complete (e :: rest)

/-- The Leaves of a command tree, from left to right: a node with `scmd` set
is a Leaf; otherwise the Leaves of its children that are present. -/
def command.leaves : command → List simple_command
  | .mk (some s) _ _ _ => [s]
  | .mk none _ none none => []
  | .mk none _ (some l) none => l.leaves
  | .mk none _ none (some r) => r.leaves
  | .mk none _ (some l) (some r) => l.leaves ++ r.leaves

/-- The Leaves of a nullable tree. -/
def leaves_of : Option command → List simple_command
  | none => []
  | some c => c.leaves

/-- At least one of the redirection targets `in`, `out`, `err` is set. -/
def simple_command.redirected (s : simple_command) : Bool :=
  s.inp.isSome || s.out.isSome || s.err.isSome

/-- The number of `"` characters of a text is odd. -/
def quote_parity : List Char → Bool
  | [] => false
  | c :: rest => if c = '"' then !quote_parity rest else quote_parity rest

/-- The target that an item gives to a standard stream served by the
redirection operators `ops`: the target of a redirection pair whose operator
is one of `ops`, nothing otherwise. -/
def Item.target (ops : List CString) : Item → Option CString
  | .arg _ => none
  | .redirect op t => if op ∈ ops then some t else none

/-- The token following the last redirection operator among `ops` met in the
left-to-right scan of a run given by its items; `none` when no such operator
occurs. -/
def last_target (ops : List CString) (items : List Item) : Option CString :=
  (items.filterMap (Item.target ops)).getLast?

/-- A Leaf: `scmd` is set and both children are absent. -/
def command.is_leaf : command → Bool
  | .mk (some _) _ none none => true
  | _ => false

/-- Every Operator node of the tree has a left child that is absent or a Leaf
(nesting happens on the right only). -/
def command.right_nested : command → Bool
  | .mk (some _) _ _ _ => true
  | .mk none _ none none => true
  | .mk none _ (some l) none => l.is_leaf
  | .mk none _ none (some r) => r.right_nested
  | .mk none _ (some l) (some r) => l.is_leaf && r.right_nested

/-! ## Lemmas on the parser -/

theorem is_operator_take_two (op : CString) (h : is_operator op = true) :
    op.take 2 = op := by
  simp only [is_operator, Bool.or_eq_true, decide_eq_true_eq] at h
  rcases h with (((h | h) | h) | h) | h <;> subst h <;> rfl

theorem is_operator_not_redirection (t : CString) (h : is_redirection t = true) :
    is_operator t = false := by
  simp only [is_redirection, Bool.or_eq_true, decide_eq_true_eq] at h
  rcases h with ((h | h) | h) | h <;> subst h <;> rfl

theorem is_complex_command_eq_false_iff (tokens : List CString) :
    is_complex_command tokens = false ↔ ∀ t ∈ tokens, is_operator t = false := by
  induction tokens with
  | nil => simp [is_complex_command]
  | cons t ts ih =>
    by_cases h : is_operator t = true
    · simp [is_complex_command, h]
    · simp only [Bool.not_eq_true] at h
      simp [is_complex_command, h, ih]

theorem is_complex_command_append_operator (L R : List CString) (op : CString)
    (hop : is_operator op = true) : is_complex_command (L ++ op :: R) = true := by
  induction L with
  | nil => simp [is_complex_command, hop]
  | cons t ts ih =>
    by_cases h : is_operator t = true
    · simp [is_complex_command, h]
    · simp only [Bool.not_eq_true] at h
      simp [is_complex_command, h, ih]

theorem split_operator_append (L R : List CString) (op : CString)
    (hL : ∀ t ∈ L, is_operator t = false) (hop : is_operator op = true) :
    split_operator (L ++ op :: R) = some (L, op, R) := by
  induction L with
  | nil => simp [split_operator, hop]
  | cons t ts ih =>
    have ht : is_operator t = false := hL t (List.mem_cons_self _ _)
    have hts : ∀ x ∈ ts, is_operator x = false :=
      fun x hx => hL x (List.mem_cons_of_mem _ hx)
    simp [split_operator, ht, ih hts]

theorem split_operator_eq_some (tokens l r : List CString) (o : CString)
    (h : split_operator tokens = some (l, o, r)) :
    tokens = l ++ o :: r ∧ is_operator o = true ∧ ∀ t ∈ l, is_operator t = false := by
  induction tokens generalizing l with
  | nil => simp [split_operator] at h
  | cons t ts ih =>
    by_cases ht : is_operator t = true
    · simp only [split_operator, ht, if_true, Option.some.injEq, Prod.mk.injEq] at h
      obtain ⟨rfl, rfl, rfl⟩ := h
      simp [ht]
    · simp only [Bool.not_eq_true] at ht
      simp only [split_operator, ht] at h
      cases hs : split_operator ts with
      | none => simp [hs] at h
      | some v =>
        obtain ⟨l1, o1, r1⟩ := v
        simp only [hs, Option.some.injEq, Prod.mk.injEq] at h
        obtain ⟨rfl, rfl, rfl⟩ := h
        obtain ⟨h1, h2, h3⟩ := ih l1 hs
        refine ⟨by simp [h1], h2, ?_⟩
        intro x hx
        rcases List.mem_cons.mp hx with rfl | hx
        · exact ht
        · exact h3 x hx

theorem construct_aux_cons (fuel : Nat) (t0 : CString) (ts : List CString) :
    construct_aux (fuel + 1) (t0 :: ts) =
      if is_complex_command (t0 :: ts) = true then
        match split_operator (t0 :: ts) with
        | none => none
        | some (t1, op, t2) =>
          some (command.mk none (op.take 2) (construct_aux fuel t1) (construct_aux fuel t2))
      else
        match extract_redirections (t0 :: ts)
            { inp := none, out := none, err := none, tokens := [],
              builtin := is_builtin t0 } with
        | none => none
        | some s => some (command.mk (some s) [] none none) := by
  by_cases hc : is_complex_command (t0 :: ts) = true
  · simp [construct_aux, hc]
  · simp only [Bool.not_eq_true] at hc
    simp [construct_aux, hc]

theorem construct_aux_succ (fuel : Nat) :
    ∀ tokens : List CString, tokens.length ≤ fuel →
      construct_aux (fuel + 1) tokens = construct_aux fuel tokens := by
  induction fuel with
  | zero =>
    intro tokens h
    have : tokens = [] := List.eq_nil_of_length_eq_zero (Nat.le_zero.mp h)
    subst this
    rfl
  | succ f ih =>
    intro tokens h
    cases tokens with
    | nil => rfl
    | cons t0 ts =>
      rw [construct_aux_cons, construct_aux_cons]
      by_cases hc : is_complex_command (t0 :: ts) = true
      · cases hs : split_operator (t0 :: ts) with
        | none => simp [hc, hs]
        | some v =>
          obtain ⟨l, o, r⟩ := v
          obtain ⟨h1, _, _⟩ := split_operator_eq_some _ _ _ _ hs
          have hlen : l.length + r.length + 1 = (t0 :: ts).length := by
            rw [h1]; simp; omega
          have hl : l.length ≤ f := by simp at h hlen; omega
          have hr : r.length ≤ f := by simp at h hlen; omega
          simp [hc, hs, ih l hl, ih r hr]
      · simp only [Bool.not_eq_true] at hc
        simp [hc]

theorem construct_aux_fuel (fuel : Nat) (tokens : List CString)
    (h : tokens.length ≤ fuel) : construct_aux fuel tokens = construct_command tokens := by
  induction fuel with
  | zero =>
    have : tokens = [] := List.eq_nil_of_length_eq_zero (Nat.le_zero.mp h)
    subst this
    rfl
  | succ f ih =>
    by_cases hf : tokens.length ≤ f
    · rw [construct_aux_succ f tokens hf]
      exact ih hf
    · have : tokens.length = f + 1 := by omega
      simp [construct_command, this]

theorem redirection_step_plain (t : CString) (nxt : Option CString) (cmd : simple_command)
    (h : is_redirection t = false) : redirection_step t nxt cmd = some (cmd, false) := by
  simp only [is_redirection, Bool.or_eq_false_iff, decide_eq_false_iff_not] at h
  obtain ⟨⟨⟨h1, h2⟩, h3⟩, h4⟩ := h
  simp [redirection_step, h1, h2, h3, h4]

theorem redirection_step_dangling (t : CString) (cmd : simple_command)
    (h : is_redirection t = true) : redirection_step t none cmd = none := by
  simp only [is_redirection, Bool.or_eq_true, decide_eq_true_eq] at h
  rcases h with ((h | h) | h) | h <;> subst h <;> simp [redirection_step]

theorem redirection_step_target (t x : CString) (cmd : simple_command)
    (h : is_redirection t = true) :
    ∃ cmd1, redirection_step t (some x) cmd = some (cmd1, true) := by
  simp only [is_redirection, Bool.or_eq_true, decide_eq_true_eq] at h
  rcases h with ((h | h) | h) | h <;> subst h <;> simp [redirection_step]

theorem extract_scan_eq_none_iff (n : Nat) :
    ∀ (tokens : List CString), tokens.length ≤ n → ∀ cmd : simple_command,
      (extract_scan tokens cmd = none ↔ dangling_redirection tokens = true) := by
  induction n with
  | zero =>
    intro tokens h cmd
    have : tokens = [] := List.eq_nil_of_length_eq_zero (Nat.le_zero.mp h)
    subst this
    simp [extract_scan, dangling_redirection]
  | succ k ih =>
    intro tokens h cmd
    match tokens, h with
    | [], _ => simp [extract_scan, dangling_redirection]
    | [t], _ =>
      by_cases hr : is_redirection t = true
      · simp [extract_scan, dangling_redirection, redirection_step_dangling t cmd hr, hr]
      · simp only [Bool.not_eq_true] at hr
        simp [extract_scan, dangling_redirection, redirection_step_plain t none cmd hr, hr]
    | t :: x :: rest, h =>
      by_cases hr : is_redirection t = true
      · obtain ⟨cmd1, h1⟩ := redirection_step_target t x cmd hr
        have hlen : rest.length ≤ k := by simp at h; omega
        simp [extract_scan, dangling_redirection, h1, hr, ih rest hlen cmd1]
      · simp only [Bool.not_eq_true] at hr
        have hlen : (x :: rest).length ≤ k := by simp at h ⊢; omega
        simp [extract_scan, dangling_redirection, redirection_step_plain t (some x) cmd hr, hr,
          ih (x :: rest) hlen cmd]

theorem extract_copy_items (n : Nat) :
    ∀ (tokens : List CString), tokens.length ≤ n →
      (∀ t ∈ tokens, is_operator t = false) → dangling_redirection tokens = false →
      ∃ items : List Item, tokens = items.flatMap Item.toks ∧
        (∀ p ∈ items, p.wf = true) ∧ extract_copy tokens = items.flatMap Item.args := by
  induction n with
  | zero =>
    intro tokens h _ _
    have : tokens = [] := List.eq_nil_of_length_eq_zero (Nat.le_zero.mp h)
    subst this
    exact ⟨[], by simp [extract_copy]⟩
  | succ k ih =>
    intro tokens h hop hd
    match tokens, h, hop, hd with
    | [], _, _, _ => exact ⟨[], by simp [extract_copy]⟩
    | [t], _, hop, hd =>
      have hr : is_redirection t = false := by simpa [dangling_redirection] using hd
      have ho : is_operator t = false := hop t (List.mem_singleton_self t)
      exact ⟨[Item.arg t], by simp [Item.toks, Item.args, Item.wf, extract_copy, hr, ho]⟩
    | t :: x :: rest, h, hop, hd =>
      by_cases hr : is_redirection t = true
      · have hlen : rest.length ≤ k := by simp at h; omega
        have hop1 : ∀ y ∈ rest, is_operator y = false := fun y hy =>
          hop y (List.mem_cons_of_mem _ (List.mem_cons_of_mem _ hy))
        have hx : is_operator x = false := hop x (by simp)
        have hd1 : dangling_redirection rest = false := by
          simpa [dangling_redirection, hr] using hd
        obtain ⟨items, e1, e2, e3⟩ := ih rest hlen hop1 hd1
        refine ⟨Item.redirect t x :: items, ?_, ?_, ?_⟩
        · simp [Item.toks, ← e1]
        · intro p hp
          rcases List.mem_cons.mp hp with rfl | hp
          · simp [Item.wf, hr, hx]
          · exact e2 p hp
        · simp [Item.args, extract_copy, hr, e3]
      · simp only [Bool.not_eq_true] at hr
        have hlen : (x :: rest).length ≤ k := by simp at h ⊢; omega
        have hop1 : ∀ y ∈ x :: rest, is_operator y = false := fun y hy =>
          hop y (List.mem_cons_of_mem _ hy)
        have ht : is_operator t = false := hop t (by simp)
        have hd1 : dangling_redirection (x :: rest) = false := by
          simpa [dangling_redirection, hr] using hd
        obtain ⟨items, e1, e2, e3⟩ := ih (x :: rest) hlen hop1 hd1
        refine ⟨Item.arg t :: items, ?_, ?_, ?_⟩
        · simp [Item.toks, ← e1]
        · intro p hp
          rcases List.mem_cons.mp hp with rfl | hp
          · simp [Item.wf, hr, ht]
          · exact e2 p hp
        · simp [Item.args, extract_copy, hr, e3]

theorem construct_command_simple (t0 : CString) (ts : List CString)
    (hc : is_complex_command (t0 :: ts) = false) :
    construct_command (t0 :: ts) =
      match extract_redirections (t0 :: ts)
          { inp := none, out := none, err := none, tokens := [],
            builtin := is_builtin t0 } with
      | none => none
      | some s => some (command.mk (some s) [] none none) := by
  simp [construct_command, construct_aux_cons, hc]

theorem construct_command_split (L R : List CString) (op : CString)
    (hop : is_operator op = true) (hL : ∀ t ∈ L, is_operator t = false) :
    construct_command (L ++ op :: R) =
      some (command.mk none op (construct_command L) (construct_command R)) := by
  have hsplit := split_operator_append L R op hL hop
  have hcx := is_complex_command_append_operator L R op hop
  have hlen : (L ++ op :: R).length = (L.length + R.length) + 1 := by simp; omega
  rw [construct_command, hlen]
  match hts : L ++ op :: R with
  | [] => simp at hts
  | t0 :: ts =>
    rw [hts] at hsplit hcx
    rw [construct_aux_cons]
    simp only [hcx, if_true, hsplit, is_operator_take_two op hop]
    rw [construct_aux_fuel _ L (by omega), construct_aux_fuel _ R (by omega)]

/-! ## The command-tree builder: operator-free runs and operator splits -/

/-- C1: for a non-empty token list without control-operator tokens in which
every redirection operator met in the left-to-right scan is followed by a
token, `construct_command` returns one Leaf (`scmd` set, both children absent);
the list is a sequence of plain arguments and (redirection operator, target)
pairs, and the Leaf's arguments are the plain arguments in order, i.e. the
tokens with each redirection operator and the token after it removed. -/
theorem construct_command_leaf_arguments (tokens : List CString) (hne : tokens ≠ [])
    (hop : ∀ t ∈ tokens, is_operator t = false)
    (hd : dangling_redirection tokens = false) :
    ∃ (s : simple_command) (items : List Item),
      construct_command tokens = some (command.mk (some s) [] none none) ∧
      tokens = items.flatMap Item.toks ∧ (∀ p ∈ items, p.wf = true) ∧
      s.tokens = items.flatMap Item.args := by
  obtain ⟨items, e1, e2, e3⟩ := extract_copy_items tokens.length tokens (le_refl _) hop hd
  match tokens, hne with
  | t0 :: ts, _ =>
    have hc : is_complex_command (t0 :: ts) = false :=
      (is_complex_command_eq_false_iff _).mpr hop
    rw [construct_command_simple t0 ts hc]
    cases hs : extract_scan (t0 :: ts)
        { inp := none, out := none, err := none, tokens := [], builtin := is_builtin t0 } with
    | none =>
      rw [(extract_scan_eq_none_iff _ _ (le_refl _) _).mp hs] at hd
      exact absurd hd (by decide)
    | some c =>
      exact ⟨{ c with tokens := extract_copy (t0 :: ts) }, items,
        by simp [extract_redirections, hs], e1, e2, e3⟩

/-- Witness for C1 on the tokens `ls > f -l`. -/
theorem construct_command_leaf_arguments_witness :
    ∃ (s : simple_command) (items : List Item),
      construct_command ["ls".toList, ">".toList, "f".toList, "-l".toList] =
        some (command.mk (some s) [] none none) ∧
      ["ls".toList, ">".toList, "f".toList, "-l".toList] = items.flatMap Item.toks ∧
      (∀ p ∈ items, p.wf = true) ∧ s.tokens = items.flatMap Item.args :=
  construct_command_leaf_arguments ["ls".toList, ">".toList, "f".toList, "-l".toList]
    (by decide) (by decide) (by decide)

/-- C9: for a non-empty token list without control-operator tokens,
`construct_command` returns NULL exactly when the left-to-right scan (skipping
the token after each redirection operator) reaches a redirection operator with
no token after it; otherwise it returns a Leaf. -/
theorem construct_command_null_iff_dangling (tokens : List CString) (hne : tokens ≠ [])
    (hop : ∀ t ∈ tokens, is_operator t = false) :
    (construct_command tokens = none ↔ dangling_redirection tokens = true) ∧
      (dangling_redirection tokens = false →
        ∃ s : simple_command, construct_command tokens = some (command.mk (some s) [] none none)) := by
  match tokens, hne with
  | t0 :: ts, _ =>
    have hc : is_complex_command (t0 :: ts) = false :=
      (is_complex_command_eq_false_iff _).mpr hop
    have key := extract_scan_eq_none_iff (t0 :: ts).length (t0 :: ts) (le_refl _)
      { inp := none, out := none, err := none, tokens := [], builtin := is_builtin t0 }
    rw [construct_command_simple t0 ts hc]
    cases hs : extract_scan (t0 :: ts)
        { inp := none, out := none, err := none, tokens := [], builtin := is_builtin t0 } with
    | none =>
      have hd := key.mp hs
      simp [extract_redirections, hs, hd]
    | some c =>
      have hd : dangling_redirection (t0 :: ts) = false := by
        cases h : dangling_redirection (t0 :: ts) with
        | false => rfl
        | true => rw [key.mpr h] at hs; exact absurd hs (by simp)
      simp [extract_redirections, hs, hd]

/-- Witness for C9 on the tokens `ls >`, where the builder fails. -/
theorem construct_command_null_iff_dangling_witness :
    (construct_command ["ls".toList, ">".toList] = none ↔
        dangling_redirection ["ls".toList, ">".toList] = true) ∧
      (dangling_redirection ["ls".toList, ">".toList] = false →
        ∃ s : simple_command,
          construct_command ["ls".toList, ">".toList] = some (command.mk (some s) [] none none)) :=
  construct_command_null_iff_dangling ["ls".toList, ">".toList] (by decide) (by decide)

/-! ## The tokenizer -/

theorem splitOnP_takeWhile_dropWhile (l : List Char) :
    l.splitOnP is_delimiter =
      l.takeWhile (fun c => !is_delimiter c) ::
        (match l.dropWhile (fun c => !is_delimiter c) with
          | [] => []
          | _ :: r => r.splitOnP is_delimiter) := by
  induction l with
  | nil => simp
  | cons c cs ih =>
    rw [List.splitOnP_cons]
    by_cases hc : is_delimiter c = true
    · simp [hc, List.takeWhile_cons, List.dropWhile_cons]
    · simp only [Bool.not_eq_true] at hc
      rw [ih]
      simp [hc, List.takeWhile_cons, List.dropWhile_cons, List.modifyHead]

theorem maximal_runs_nil : maximal_runs [] = [] := by
  simp [maximal_runs]

theorem maximal_runs_cons_delimiter (c : Char) (cs : List Char)
    (hc : is_delimiter c = true) : maximal_runs (c :: cs) = maximal_runs cs := by
  simp [maximal_runs, List.splitOnP_cons, hc]

theorem maximal_runs_skip (l : List Char) :
    maximal_runs (skip_delimiters l) = maximal_runs l := by
  induction l with
  | nil => rfl
  | cons c cs ih =>
    by_cases hc : is_delimiter c = true
    · simp [skip_delimiters, hc, ih, maximal_runs_cons_delimiter]
    · simp only [Bool.not_eq_true] at hc
      simp [skip_delimiters, hc]

theorem maximal_runs_cons_word (c : Char) (cs : List Char)
    (hc : is_delimiter c = false) :
    maximal_runs (c :: cs) =
      (c :: cs).takeWhile (fun c => !is_delimiter c) ::
        maximal_runs ((c :: cs).dropWhile (fun c => !is_delimiter c)) := by
  have h := splitOnP_takeWhile_dropWhile (c :: cs)
  unfold maximal_runs
  rw [h]
  have hne : ((c :: cs).takeWhile (fun c => !is_delimiter c)).isEmpty = false := by
    simp [List.takeWhile_cons, hc]
  rw [List.filter_cons]
  simp only [hne, Bool.not_false, if_true]
  congr 1
  cases hd : (c :: cs).dropWhile (fun c => !is_delimiter c) with
  | nil => simp
  | cons d r =>
    have hdel : is_delimiter d = true := by
      have := List.head_dropWhile_not (fun c => !is_delimiter c) (c :: cs)
      simp only [hd] at this
      simpa using this
    simp [List.splitOnP_cons, hdel]

theorem scan_token_plain (n : Nat) :
    ∀ line : List Char, line.length ≤ n → '"' ∉ line → NUL ∉ line →
      scan_token line false =
        (line.takeWhile (fun c => !is_delimiter c),
          line.dropWhile (fun c => !is_delimiter c), false) := by
  induction n with
  | zero =>
    intro line h _ _
    have : line = [] := List.eq_nil_of_length_eq_zero (Nat.le_zero.mp h)
    subst this
    rfl
  | succ k ih =>
    intro line h hq hz
    match line, h, hq, hz with
    | [], _, _, _ => rfl
    | [c], _, hq, hz =>
      have hc1 : c ≠ '"' := fun e => hq (by simp [e])
      have hc2 : c ≠ NUL := fun e => hz (by simp [e])
      by_cases hd : is_delimiter c = true
      · simp [scan_token, hd, List.takeWhile_cons, List.dropWhile_cons]
      · simp only [Bool.not_eq_true] at hd
        simp [scan_token, hd, hc1, hc2, List.takeWhile_cons, List.dropWhile_cons]
    | c :: x :: rest, h, hq, hz =>
      have hc1 : c ≠ '"' := fun e => hq (by simp [e])
      have hc2 : c ≠ NUL := fun e => hz (by simp [e])
      by_cases hd : is_delimiter c = true
      · simp [scan_token, hd, List.takeWhile_cons, List.dropWhile_cons]
      · simp only [Bool.not_eq_true] at hd
        have hlen : (x :: rest).length ≤ k := by simp at h ⊢; omega
        have hq1 : '"' ∉ x :: rest := fun hm => hq (List.mem_cons_of_mem _ hm)
        have hz1 : NUL ∉ x :: rest := fun hm => hz (List.mem_cons_of_mem _ hm)
        have := ih (x :: rest) hlen hq1 hz1
        rw [scan_token]
        simp only [hd, hc1, hc2, this, Bool.or_false, decide_False, Bool.false_eq_true,
          if_false, Bool.and_false]
        rw [List.takeWhile_cons (a := c), List.dropWhile_cons (x := c)]
        simp [hd]

theorem length_dropWhile_le (p : Char → Bool) (l : List Char) :
    (l.dropWhile p).length ≤ l.length := by
  induction l with
  | nil => simp
  | cons c cs ih =>
    rw [List.dropWhile_cons]
    split
    · simp; omega
    · simp

theorem skip_delimiters_length (l : List Char) : (skip_delimiters l).length ≤ l.length := by
  induction l with
  | nil => simp [skip_delimiters]
  | cons c cs ih =>
    by_cases hc : is_delimiter c = true
    · simp [skip_delimiters, hc]; omega
    · simp only [Bool.not_eq_true] at hc
      simp [skip_delimiters, hc]

theorem skip_delimiters_head (l : List Char) (c : Char) (rest : List Char)
    (h : skip_delimiters l = c :: rest) : is_delimiter c = false := by
  induction l with
  | nil => simp [skip_delimiters] at h
  | cons x xs ih =>
    by_cases hx : is_delimiter x = true
    · simp only [skip_delimiters, hx, if_true] at h
      exact ih h
    · simp only [Bool.not_eq_true] at hx
      simp only [skip_delimiters, hx] at h
      simp at h
      rw [← h.1]
      exact hx

theorem skip_delimiters_subset (l : List Char) : ∀ c ∈ skip_delimiters l, c ∈ l := by
  induction l with
  | nil => simp [skip_delimiters]
  | cons x xs ih =>
    intro c hc
    by_cases hx : is_delimiter x = true
    · simp only [skip_delimiters, hx, if_true] at hc
      exact List.mem_cons_of_mem _ (ih c hc)
    · simp only [Bool.not_eq_true] at hx
      simpa [skip_delimiters, hx] using hc

theorem parse_loop_plain (rounds : Nat) :
    ∀ line : List Char, line.length < rounds → '"' ∉ line → NUL ∉ line →
      parse_loop rounds line false = maximal_runs line := by
  induction rounds with
  | zero => intro line h; omega
  | succ k ih =>
    intro line h hq hz
    match line, h, hq, hz with
    | [], _, _, _ => simp [parse_loop, maximal_runs_nil]
    | c :: cs, h, hq, hz =>
      have hc2 : c ≠ NUL := fun e => hz (by simp [e])
      rw [parse_loop]
      simp only [hc2, if_false]
      rw [← maximal_runs_skip (c :: cs)]
      have hsub := skip_delimiters_subset (c :: cs)
      have hlen := skip_delimiters_length (c :: cs)
      cases hs : skip_delimiters (c :: cs) with
      | nil => simp [maximal_runs_nil]
      | cons y ys =>
        rw [hs] at hsub hlen
        have hy : is_delimiter y = false := skip_delimiters_head _ _ _ hs
        have hq1 : '"' ∉ y :: ys := fun hm => hq (hsub _ hm)
        have hz1 : NUL ∉ y :: ys := fun hm => hz (hsub _ hm)
        have hy2 : y ≠ NUL := fun e => hz1 (by simp [e])
        simp only [hy2, if_false]
        rw [scan_token_plain _ (y :: ys) (le_refl _) hq1 hz1, maximal_runs_cons_word y ys hy]
        congr 1
        apply ih
        · have h1 := length_dropWhile_le (fun c => !is_delimiter c) (y :: ys)
          have h2 : ((y :: ys).dropWhile (fun c => !is_delimiter c)).length < (y :: ys).length := by
            rw [List.dropWhile_cons]
            simp only [hy, Bool.not_false, if_true]
            have := length_dropWhile_le (fun c => !is_delimiter c) ys
            simp; omega
          simp at h hlen h2 ⊢
          omega
        · intro hm
          exact hq1 ((List.dropWhile_sublist (fun c => !is_delimiter c)).subset hm)
        · intro hm
          exact hz1 ((List.dropWhile_sublist (fun c => !is_delimiter c)).subset hm)

/-- C4: for a line without `"` (a C string, so without NUL), `parse_line`
returns exactly the maximal runs of characters other than space, tab and
newline, in order; no token is empty, and a line made only of delimiters
(the empty line included) yields no token. -/
theorem parse_line_maximal_runs (line : CString) (hq : '"' ∉ line) (hz : NUL ∉ line) :
    parse_line line = maximal_runs line ∧
      (∀ t ∈ parse_line line, t ≠ []) ∧
      ((∀ c ∈ line, is_delimiter c = true) → parse_line line = []) := by
  have h1 : parse_line line = maximal_runs line :=
    parse_loop_plain (line.length + 1) line (Nat.lt_succ_self _) hq hz
  refine ⟨h1, ?_, ?_⟩
  · intro t ht
    rw [h1, maximal_runs, List.mem_filter] at ht
    intro e
    rw [e] at ht
    simp at ht
  · intro hall
    rw [h1]
    clear h1 hq hz
    induction line with
    | nil => exact maximal_runs_nil
    | cons c cs ih =>
      rw [maximal_runs_cons_delimiter c cs (hall c (List.mem_cons_self _ _))]
      exact ih (fun x hx => hall x (List.mem_cons_of_mem _ hx))

/-- Witness for C4 on the line `  ls   -l  `. -/
theorem parse_line_maximal_runs_witness :
    parse_line "  ls   -l  ".toList = maximal_runs "  ls   -l  ".toList ∧
      (∀ t ∈ parse_line "  ls   -l  ".toList, t ≠ []) ∧
      ((∀ c ∈ "  ls   -l  ".toList, is_delimiter c = true) →
        parse_line "  ls   -l  ".toList = []) :=
  parse_line_maximal_runs "  ls   -l  ".toList (by decide) (by decide)

/-! ## The de-quote/unescape pass -/

theorem char_at_append_zero (pre : List Char) (c : Char) (rest : List Char) :
    char_at (pre ++ c :: rest) pre.length = some c := by
  unfold char_at
  rw [List.append_assoc, List.getElem?_append_right (le_refl _)]
  simp

theorem char_at_length (pre : List Char) : char_at pre pre.length = some NUL := by
  unfold char_at
  rw [List.getElem?_append_right (le_refl _)]
  simp

theorem char_at_append_one (pre : List Char) (c e : Char) (rest : List Char) :
    char_at (pre ++ c :: e :: rest) (pre.length + 1) = some e := by
  unfold char_at
  rw [List.append_assoc, List.getElem?_append_right (Nat.le_succ _)]
  simp

theorem char_at_append_last (pre : List Char) (c : Char) :
    char_at (pre ++ [c]) (pre.length + 1) = some NUL := by
  unfold char_at
  rw [List.append_assoc, List.getElem?_append_right (Nat.le_succ _)]
  simp

theorem lookup_cons_char (k v e : Char) (l : List (Char × Char)) :
    List.lookup e ((k, v) :: l) = if e = k then some v else List.lookup e l := by
  by_cases h : e = k
  · subst h
    simp [List.lookup]
  · have hb : (e == k) = false := by simpa using h
    simp [List.lookup, hb, h]

theorem escape_value_eq_lookup (e : Char) : escape_value e = escape_table.lookup e := by
  unfold escape_value escape_table
  simp only [lookup_cons_char]
  rfl

theorem dequote_loop_lexemes (lexs : List Lexeme) :
    (∀ x ∈ lexs, x.wf = true) → ∀ (pre d : List Char) (steps : Nat),
      (lexs.flatMap Lexeme.text).length < steps →
      dequote_loop (pre ++ lexs.flatMap Lexeme.text) steps pre.length d =
        .ok (d ++ lexs.flatMap Lexeme.value) := by
  induction lexs with
  | nil =>
    intro _ pre d steps hs
    match steps, hs with
    | k + 1, _ =>
      simp [dequote_loop, char_at_length]
  | cons x xs ih =>
    intro hwf pre d steps hs
    have hwfx : x.wf = true := hwf x (List.mem_cons_self _ _)
    have hwfxs : ∀ y ∈ xs, y.wf = true := fun y hy => hwf y (List.mem_cons_of_mem _ hy)
    match steps, hs with
    | k + 1, hs =>
      cases x with
      | quote =>
        have hlen : (xs.flatMap Lexeme.text).length < k := by
          simp only [List.flatMap_cons, Lexeme.text, List.length_append, List.length_cons,
            List.length_nil] at hs
          omega
        have hne1 : ('"' : Char) ≠ NUL := by decide
        have hne2 : ('"' : Char) ≠ '\\' := by decide
        have key := ih hwfxs (pre ++ ['"']) d k hlen
        simp only [List.length_append, List.length_singleton, List.append_assoc,
          List.singleton_append] at key
        simp only [List.flatMap_cons, Lexeme.text, Lexeme.value, List.nil_append,
          List.singleton_append]
        rw [dequote_loop, char_at_append_zero]
        simp only [hne1, hne2, if_false, ne_eq, not_true_eq_false]
        exact key
      | plain c =>
        simp only [Lexeme.wf, Bool.and_eq_true, decide_eq_true_eq] at hwfx
        obtain ⟨⟨h1, h2⟩, h3⟩ := hwfx
        have hlen : (xs.flatMap Lexeme.text).length < k := by
          simp only [List.flatMap_cons, Lexeme.text, List.length_append, List.length_cons,
            List.length_nil] at hs
          omega
        have key := ih hwfxs (pre ++ [c]) (d ++ [c]) k hlen
        simp only [List.length_append, List.length_singleton, List.append_assoc,
          List.singleton_append] at key
        simp only [List.flatMap_cons, Lexeme.text, Lexeme.value, List.singleton_append]
        rw [dequote_loop, char_at_append_zero]
        simp only [h1, h2, h3, if_false, ne_eq, not_false_eq_true, if_true]
        exact key
      | escape e =>
        simp only [Lexeme.wf] at hwfx
        obtain ⟨v, hv⟩ := Option.isSome_iff_exists.mp hwfx
        have hlen : (xs.flatMap Lexeme.text).length < k := by
          simp only [List.flatMap_cons, Lexeme.text, List.length_append, List.length_cons,
            List.length_nil] at hs
          omega
        have hne1 : ('\\' : Char) ≠ NUL := by decide
        have key := ih hwfxs (pre ++ ['\\', e]) (d ++ [v]) k hlen
        simp only [List.length_append, List.length_cons, List.length_singleton,
          List.length_nil, List.append_assoc, List.cons_append, List.nil_append] at key
        simp only [List.flatMap_cons, Lexeme.text, Lexeme.value, List.cons_append,
          List.nil_append, hv, Option.toList]
        have hc1 := char_at_append_one pre '\\' e (xs.flatMap Lexeme.text)
        rw [dequote_loop, char_at_append_zero]
        simp only [hne1, if_false, if_true, hc1, escape_value_eq_lookup, hv]
        exact key

theorem lexemes_of_char (c : Char) (h1 : c ≠ '\\') (h2 : c ≠ NUL) :
    ∃ x : Lexeme, x.text = [c] ∧ x.wf = true := by
  by_cases hq : c = '"'
  · exact ⟨Lexeme.quote, by simp [Lexeme.text, hq], rfl⟩
  · exact ⟨Lexeme.plain c, rfl, by simp [Lexeme.wf, h1, h2, hq]⟩

theorem lexemes_of_token (n : Nat) :
    ∀ token : CString, token.length ≤ n → NUL ∉ token → escapes_recognised token = true →
      ∃ lexs : List Lexeme, token = lexs.flatMap Lexeme.text ∧ ∀ x ∈ lexs, x.wf = true := by
  induction n with
  | zero =>
    intro token h _ _
    have : token = [] := List.eq_nil_of_length_eq_zero (Nat.le_zero.mp h)
    subst this
    exact ⟨[], by simp⟩
  | succ k ih =>
    intro token h hz he
    match token, h, hz, he with
    | [], _, _, _ => exact ⟨[], by simp⟩
    | [c], _, hz, he =>
      have h1 : c ≠ '\\' := by simpa [escapes_recognised] using he
      have h2 : c ≠ NUL := fun e => hz (by simp [e])
      obtain ⟨x, hx1, hx2⟩ := lexemes_of_char c h1 h2
      exact ⟨[x], by simp [hx1], by simp [hx2]⟩
    | c :: e :: rest, h, hz, he =>
      by_cases hc : c = '\\'
      · subst hc
        simp only [escapes_recognised, if_true, Bool.and_eq_true] at he
        have hlen : rest.length ≤ k := by simp at h; omega
        have hz1 : NUL ∉ rest := fun hm =>
          hz (List.mem_cons_of_mem _ (List.mem_cons_of_mem _ hm))
        obtain ⟨lexs, e1, e2⟩ := ih rest hlen hz1 he.2
        refine ⟨Lexeme.escape e :: lexs, by simp [Lexeme.text, ← e1], ?_⟩
        intro x hx
        rcases List.mem_cons.mp hx with rfl | hx
        · simpa [Lexeme.wf] using he.1
        · exact e2 x hx
      · simp only [escapes_recognised, hc, if_false] at he
        have hlen : (e :: rest).length ≤ k := by simp at h ⊢; omega
        have hz1 : NUL ∉ e :: rest := fun hm => hz (List.mem_cons_of_mem _ hm)
        have h2 : c ≠ NUL := fun e => hz (by simp [e])
        obtain ⟨lexs, e1, e2⟩ := ih (e :: rest) hlen hz1 he
        obtain ⟨x, hx1, hx2⟩ := lexemes_of_char c hc h2
        refine ⟨x :: lexs, by simp [hx1, ← e1], ?_⟩
        intro y hy
        rcases List.mem_cons.mp hy with rfl | hy
        · exact hx2
        · exact e2 y hy

theorem dequote_lexemes (lexs : List Lexeme) (hwf : ∀ x ∈ lexs, x.wf = true) :
    dequote (lexs.flatMap Lexeme.text) = .ok (lexs.flatMap Lexeme.value) := by
  have := dequote_loop_lexemes lexs hwf [] [] ((lexs.flatMap Lexeme.text).length + 1)
    (Nat.lt_succ_self _)
  simpa [dequote] using this

/-- C5: for a token (a C string, so without NUL) in which each backslash,
pairing left to right, is followed by one of `"`, a, b, f, n, r, t, v or a
backslash, the token is a sequence of bare quotes, such backslash pairs and
other characters, and the de-quote/unescape pass yields, in order, nothing for
each bare quote, the denoted character (quote, BEL, BS, FF, LF, CR, TAB, VT,
backslash) for each pair, and every other character unchanged; the token
backslash-n becomes the single newline character. -/
theorem dequote_recognised_escapes (token : CString) (hz : NUL ∉ token)
    (he : escapes_recognised token = true) :
    (∃ lexs : List Lexeme, token = lexs.flatMap Lexeme.text ∧
        (∀ x ∈ lexs, x.wf = true) ∧
        dequote token = .ok (lexs.flatMap Lexeme.value)) ∧
      dequote ['\\', 'n'] = .ok ['\n'] := by
  refine ⟨?_, by decide⟩
  obtain ⟨lexs, e1, e2⟩ := lexemes_of_token token.length token (le_refl _) hz he
  refine ⟨lexs, e1, e2, ?_⟩
  rw [e1]
  exact dequote_lexemes lexs e2

/-- Witness for C5 on the token `"a\tb"\\` (a quoted span with an escaped
tab, followed by an escaped backslash). -/
theorem dequote_recognised_escapes_witness :
    (∃ lexs : List Lexeme, "\"a\\tb\"\\\\".toList = lexs.flatMap Lexeme.text ∧
        (∀ x ∈ lexs, x.wf = true) ∧
        dequote "\"a\\tb\"\\\\".toList = .ok (lexs.flatMap Lexeme.value)) ∧
      dequote ['\\', 'n'] = .ok ['\n'] :=
  dequote_recognised_escapes "\"a\\tb\"\\\\".toList (by decide) (by decide)

/-! ## Tokenizing and post-processing a quoted span -/

theorem scan_token_delimiter (c : Char) (rest : List Char) (in_str : Bool)
    (h : is_delimiter c = true) : scan_token (c :: rest) in_str = ([], c :: rest, in_str) := by
  cases rest with
  | nil => simp [scan_token, h]
  | cons x xs => simp [scan_token, h]

theorem scan_token_quoted (n : Nat) :
    ∀ q : List Char, q.length ≤ n → ∀ (c : Char) (in_str : Bool) (tail : List Char),
      (∀ x ∈ q, x ≠ '"' ∧ x ≠ '\t' ∧ x ≠ '\n' ∧ x ≠ NUL) → no_adjacent_spaces q = true →
      is_delimiter c = false → c ≠ NUL → (if c = '"' then !in_str else in_str) = true →
      scan_token (c :: q ++ '"' :: tail) in_str =
        (c :: q ++ (scan_token ('"' :: tail) true).1,
          (scan_token ('"' :: tail) true).2.1, (scan_token ('"' :: tail) true).2.2) := by
  induction n using Nat.strong_induction_on with
  | _ n ih =>
    intro q hlen c in_str tail hq hsp hc hcz hin
    have hcd : (c = NUL || is_delimiter c) = false := by simp [hc, hcz]
    match q, hlen, hq, hsp with
    | [], _, _, _ =>
      have hq2 : ('"' : Char) ≠ ' ' := by decide
      simp only [List.append_nil, List.nil_append, List.cons_append]
      rw [scan_token]
      simp [hcd, hin, hq2]
    | [y], hlen, hq, _ =>
      obtain ⟨hy1, hy2, hy3, hy4⟩ := hq y (List.mem_singleton_self y)
      simp only [List.cons_append, List.nil_append]
      rw [scan_token]
      by_cases hy : y = ' '
      · subst hy
        simp [hcd, hin]
      · have hyd : is_delimiter y = false := by simp [is_delimiter, hy, hy2, hy3]
        have key := ih 0 (by simp at hlen; omega) [] (by simp) y true tail (by simp) rfl hyd hy4
          (by simp [hy1])
        simp only [List.append_nil, List.nil_append, List.cons_append] at key
        simp [hcd, hin, hy, key]
    | y :: z :: q2, hlen, hq, hsp =>
      obtain ⟨hy1, hy2, hy3, hy4⟩ := hq y (List.mem_cons_self _ _)
      obtain ⟨hz1, hz2, hz3, hz4⟩ := hq z (by simp)
      have hq2 : ∀ x ∈ q2, x ≠ '"' ∧ x ≠ '\t' ∧ x ≠ '\n' ∧ x ≠ NUL := fun x hx =>
        hq x (List.mem_cons_of_mem _ (List.mem_cons_of_mem _ hx))
      have hqz : ∀ x ∈ z :: q2, x ≠ '"' ∧ x ≠ '\t' ∧ x ≠ '\n' ∧ x ≠ NUL := fun x hx =>
        hq x (List.mem_cons_of_mem _ hx)
      simp only [no_adjacent_spaces, Bool.and_eq_true, Bool.not_eq_true'] at hsp
      simp only [List.cons_append]
      rw [scan_token]
      by_cases hy : y = ' '
      · subst hy
        have hz : z ≠ ' ' := by
          intro e
          subst e
          simp at hsp
        have hzd : is_delimiter z = false := by simp [is_delimiter, hz, hz2, hz3]
        have hsp2 : no_adjacent_spaces q2 = true := by
          cases q2 with
          | nil => rfl
          | cons a q3 =>
            have := hsp.2
            simp only [no_adjacent_spaces, Bool.and_eq_true] at this
            exact this.2
        have key := ih q2.length (by simp at hlen; omega) q2 (le_refl _) z true tail hq2 hsp2
          hzd hz4 (by simp [hz1])
        simp only [List.cons_append] at key
        simp [hcd, hin, key]
      · have hyd : is_delimiter y = false := by simp [is_delimiter, hy, hy2, hy3]
        have key := ih (z :: q2).length (by simp at hlen ⊢; omega) (z :: q2) (le_refl _) y true
          tail hqz hsp.2 hyd hy4 (by simp [hy1])
        simp only [List.cons_append] at key
        simp [hcd, hin, hy, key]

theorem scan_token_closing_quote (w : List Char) :
    scan_token ('"' :: ' ' :: w) true = (['"'], ' ' :: w, false) := by
  rw [scan_token]
  have h1 : (('"' : Char) = NUL || is_delimiter '"') = false := by decide
  simp [h1, scan_token_delimiter ' ' w false (by decide)]

theorem scan_token_word (w : List Char)
    (hw : ∀ c ∈ w, is_delimiter c = false ∧ c ≠ '"' ∧ c ≠ NUL) :
    scan_token w false = (w, [], false) := by
  have hq : '"' ∉ w := fun hm => (hw _ hm).2.1 rfl
  have hz : NUL ∉ w := fun hm => (hw _ hm).2.2 rfl
  rw [scan_token_plain w.length w (le_refl _) hq hz]
  have h1 : w.takeWhile (fun c => !is_delimiter c) = w := by
    rw [List.takeWhile_eq_self_iff]
    intro c hc
    simp [(hw c hc).1]
  have h2 : w.dropWhile (fun c => !is_delimiter c) = [] := by
    rw [List.dropWhile_eq_nil_iff]
    intro c hc
    simp [(hw c hc).1]
  rw [h1, h2]

theorem parse_loop_quoted (rounds : Nat) (q w : List Char)
    (hq : ∀ x ∈ q, x ≠ '"' ∧ x ≠ '\t' ∧ x ≠ '\n' ∧ x ≠ NUL)
    (hsp : no_adjacent_spaces q = true) (hw0 : w ≠ [])
    (hw : ∀ c ∈ w, is_delimiter c = false ∧ c ≠ '"' ∧ c ≠ NUL) :
    parse_loop (rounds + 3) ('"' :: q ++ '"' :: ' ' :: w) false = ['"' :: q ++ ['"'], w] := by
  have hs1 := scan_token_quoted q.length q (le_refl _) '"' false (' ' :: w) hq hsp
    (by decide) (by decide) (by simp)
  rw [scan_token_closing_quote] at hs1
  have hn1 : ('"' : Char) ≠ NUL := by decide
  have hn2 : (' ' : Char) ≠ NUL := by decide
  match w, hw0, hw with
  | x :: xs, _, hw =>
    obtain ⟨hx1, _, hx3⟩ := hw x (List.mem_cons_self _ _)
    have hs2 := scan_token_word (x :: xs) hw
    have hk1 : skip_delimiters ('"' :: (q ++ '"' :: ' ' :: x :: xs)) =
        '"' :: (q ++ '"' :: ' ' :: x :: xs) := by
      have hqd : is_delimiter '"' = false := by decide
      simp [skip_delimiters, hqd]
    have hk2 : skip_delimiters (' ' :: x :: xs) = x :: xs := by
      have hsp1 : is_delimiter ' ' = true := by decide
      simp [skip_delimiters, hsp1, hx1]
    simp only [List.cons_append] at hs1 ⊢
    rw [parse_loop]
    simp only [hn1, if_false, hk1, hs1]
    rw [parse_loop]
    simp only [hn2, if_false, hk2, hx3, hs2]
    simp [parse_loop]

theorem flatMap_plain_text (t : List Char) :
    (t.map Lexeme.plain).flatMap Lexeme.text = t := by
  induction t with
  | nil => rfl
  | cons c cs ih => simp [List.flatMap_cons, Lexeme.text, ih]

theorem flatMap_plain_value (t : List Char) :
    (t.map Lexeme.plain).flatMap Lexeme.value = t := by
  induction t with
  | nil => rfl
  | cons c cs ih => simp [List.flatMap_cons, Lexeme.value, ih]

theorem dequote_plain (t : CString) (ht : ∀ c ∈ t, c ≠ '"' ∧ c ≠ '\\' ∧ c ≠ NUL) :
    dequote t = .ok t := by
  have h := dequote_lexemes (t.map Lexeme.plain) (by
    intro x hx
    obtain ⟨c, hc, rfl⟩ := List.mem_map.mp hx
    obtain ⟨h1, h2, h3⟩ := ht c hc
    simp [Lexeme.wf, h1, h2, h3])
  rwa [flatMap_plain_text, flatMap_plain_value] at h

theorem dequote_quoted (q : CString) (hq : ∀ c ∈ q, c ≠ '"' ∧ c ≠ '\\' ∧ c ≠ NUL) :
    dequote ('"' :: q ++ ['"']) = .ok q := by
  have h := dequote_lexemes (Lexeme.quote :: q.map Lexeme.plain ++ [Lexeme.quote]) (by
    intro x hx
    simp only [List.cons_append, List.mem_cons, List.mem_append, List.mem_map,
      List.mem_singleton, List.not_mem_nil, or_false] at hx
    rcases hx with rfl | ⟨c, hc, rfl⟩ | rfl
    · rfl
    · obtain ⟨h1, h2, h3⟩ := hq c hc
      simp [Lexeme.wf, h1, h2, h3]
    · rfl)
  simp only [List.cons_append, List.flatMap_cons, List.flatMap_append, flatMap_plain_text,
    flatMap_plain_value, Lexeme.text, Lexeme.value, List.flatMap_nil, List.append_nil,
    List.nil_append, List.singleton_append] at h
  exact h

theorem expand_token_no_dollar (env : Env) (t : CString) (h : '$' ∉ t) :
    expand_token env t = .ok t := by
  simp [expand_token, h]

/-- C3: a line made of one double-quoted span followed by a plain word.  For
every text `q` without `"`, backslash, `$`, tab, newline (and NUL) and without
two adjacent spaces, and every non-empty word `w` without space, tab, newline,
`"`, backslash, `$` (and NUL), `parse_line` on the line `"q" w` yields the two
tokens `"q"` and `w`, and `process_tokens` turns them into exactly `[q, w]`:
the quotes are stripped and the spaces of `q` are kept in the first token. -/
theorem parse_process_quoted_span (env : Env) (q w : CString)
    (hq : ∀ x ∈ q, x ≠ '"' ∧ x ≠ '\\' ∧ x ≠ '$' ∧ x ≠ '\t' ∧ x ≠ '\n' ∧ x ≠ NUL)
    (hsp : no_adjacent_spaces q = true) (hw0 : w ≠ [])
    (hw : ∀ c ∈ w, is_delimiter c = false ∧ c ≠ '"' ∧ c ≠ '\\' ∧ c ≠ '$' ∧ c ≠ NUL) :
    parse_line ('"' :: q ++ '"' :: ' ' :: w) = ['"' :: q ++ ['"'], w] ∧
      process_tokens env (parse_line ('"' :: q ++ '"' :: ' ' :: w)) = .ok [q, w] := by
  have hparse : parse_line ('"' :: q ++ '"' :: ' ' :: w) = ['"' :: q ++ ['"'], w] := by
    have hlen : ('"' :: q ++ '"' :: ' ' :: w).length + 1 = (q.length + w.length + 1) + 3 := by
      simp; omega
    rw [parse_line, hlen]
    exact parse_loop_quoted _ q w (fun x hx => ⟨(hq x hx).1, (hq x hx).2.2.2⟩) hsp hw0
      (fun c hc => ⟨(hw c hc).1, (hw c hc).2.1, (hw c hc).2.2.2.2⟩)
  refine ⟨hparse, ?_⟩
  have hd1 := dequote_quoted q (fun c hc => ⟨(hq c hc).1, (hq c hc).2.1, (hq c hc).2.2.2.2.2⟩)
  have hd2 := dequote_plain w (fun c hc => ⟨(hw c hc).2.1, (hw c hc).2.2.1, (hw c hc).2.2.2.2⟩)
  have he1 := expand_token_no_dollar env q (fun hm => (hq _ hm).2.2.1 rfl)
  have he2 := expand_token_no_dollar env w (fun hm => (hw _ hm).2.2.2.1 rfl)
  have hq0 : q.contains '$' = false := by
    simpa using fun hm => (hq _ hm).2.2.1 rfl
  have hw1 : w.contains '$' = false := by
    simpa using fun hm => (hw _ hm).2.2.2.1 rfl
  rw [hparse]
  simp only [List.cons_append] at hd1
  have hq1 : '$' ∉ q := fun hm => (hq _ hm).2.2.1 rfl
  have hw2 : '$' ∉ w := fun hm => (hw _ hm).2.2.2.1 rfl
  simp [process_tokens, collect, hd1, hd2, he1, he2, share_newtok, hq0, hw1, hq1, hw2]

/-- Witness for C3 on the line `"a b" c`. -/
theorem parse_process_quoted_span_witness :
    parse_line ('"' :: "a b".toList ++ '"' :: ' ' :: "c".toList) =
        ['"' :: "a b".toList ++ ['"'], "c".toList] ∧
      process_tokens (fun _ => none) (parse_line ('"' :: "a b".toList ++ '"' :: ' ' :: "c".toList)) =
        .ok ["a b".toList, "c".toList] :=
  parse_process_quoted_span (fun _ => none) "a b".toList "c".toList
    (by decide) (by decide) (by decide) (by decide)

/-! ## The variable-expansion pass -/

theorem VALID_VAR_of_begin (c : Char) (h : VALID_VAR_BEGIN c = true) : VALID_VAR c = true := by
  simp only [VALID_VAR_BEGIN, Bool.or_eq_true, decide_eq_true_eq] at h
  simp only [VALID_VAR, Char.isAlphanum, Bool.or_eq_true, decide_eq_true_eq]
  rcases h with h | h
  · exact Or.inl (Or.inl h)
  · exact Or.inr h

theorem capture_loop_name (token : CString) (name : List Char) :
    ∀ (a v acc : List Char) (s steps : Nat), token = a ++ name ++ v → s + 1 = a.length →
      (∀ c ∈ name, VALID_VAR c = true) → (∀ x, v.head? = some x → VALID_VAR x = false) →
      acc.length + name.length ≤ 128 → name.length < steps →
      capture_loop token steps s acc = .ok (s + name.length, acc ++ name) := by
  induction name with
  | nil =>
    intro a v acc s steps ht hs _ hv _ hsteps
    match steps, hsteps with
    | k + 1, _ =>
      subst ht
      rw [capture_loop, hs]
      cases v with
      | nil =>
        have hN : VALID_VAR NUL = false := by decide
        simp [char_at_length, hN]
      | cons x xs =>
        have hx : VALID_VAR x = false := hv x rfl
        simp [char_at_append_zero, hx]
  | cons c cs ih =>
    intro a v acc s steps ht hs hname hv hacc hsteps
    match steps, hsteps with
    | k + 1, hsteps =>
      have hc : VALID_VAR c = true := hname c (List.mem_cons_self _ _)
      have hcs : ∀ x ∈ cs, VALID_VAR x = true := fun x hx => hname x (List.mem_cons_of_mem _ hx)
      have hacc1 : acc.length < 128 := by simp at hacc; omega
      have key := ih (a ++ [c]) v (acc ++ [c]) (s + 1) k (by simp [ht]) (by simp [hs]) hcs hv
        (by simp at hacc ⊢; omega) (by simp at hsteps; omega)
      have hch : char_at token (s + 1) = some c := by
        rw [ht, hs, List.append_assoc, List.cons_append]
        exact char_at_append_zero a c (cs ++ v)
      rw [capture_loop, hch]
      simp only [hc, if_true, hacc1, key]
      simp [Nat.add_assoc, Nat.add_comm 1]

theorem expand_loop_copy (env : Env) (u : List Char) :
    ∀ (pre rest d : List Char) (steps : Nat),
      (∀ c ∈ u, c ≠ '$' ∧ c ≠ '\\' ∧ c ≠ NUL) → d.length + u.length ≤ 1024 →
      expand_loop env (pre ++ u ++ rest) (steps + u.length) pre.length d =
        expand_loop env (pre ++ u ++ rest) steps (pre.length + u.length) (d ++ u) := by
  induction u with
  | nil => intro pre rest d steps _ _; simp
  | cons c cs ih =>
    intro pre rest d steps hu hd
    obtain ⟨h1, h2, h3⟩ := hu c (List.mem_cons_self _ _)
    have hcs : ∀ x ∈ cs, x ≠ '$' ∧ x ≠ '\\' ∧ x ≠ NUL := fun x hx =>
      hu x (List.mem_cons_of_mem _ hx)
    have hd1 : d.length < 1024 := by simp at hd; omega
    have key := ih (pre ++ [c]) rest (d ++ [c]) steps hcs (by simp at hd ⊢; omega)
    simp only [List.append_assoc, List.singleton_append, List.length_append,
      List.length_singleton] at key
    have hst : steps + (c :: cs).length = (steps + cs.length) + 1 := by simp; omega
    have hch : char_at (pre ++ (c :: cs) ++ rest) pre.length = some c := by
      rw [List.append_assoc, List.cons_append]
      exact char_at_append_zero pre c (cs ++ rest)
    rw [hst, expand_loop, hch]
    simp only [h1, h2, h3, if_false, hd1, if_true]
    simp only [List.append_assoc, List.cons_append, List.length_cons] at key ⊢
    rw [key]
    congr 1
    omega

theorem expand_loop_end (env : Env) (token d : List Char) (steps : Nat)
    (hd : d.length < 1024) : expand_loop env token (steps + 1) token.length d = .ok d := by
  rw [expand_loop, char_at_length]
  simp [hd]

theorem expand_loop_dollar (env : Env) (u v : List Char) (b : Char) (bs : List Char)
    (hb : VALID_VAR_BEGIN b = true) (hbs : ∀ c ∈ bs, VALID_VAR c = true)
    (hlen : (b :: bs).length < 128) (hv0 : ∀ x, v.head? = some x → VALID_VAR x = false)
    (steps : Nat) (d : List Char) :
    expand_loop env (u ++ '$' :: (b :: bs) ++ v) (steps + 1) u.length d =
      match env (b :: bs) with
      | some value =>
        if d.length + value.length < 1024 then
          expand_loop env (u ++ '$' :: (b :: bs) ++ v) steps
            (u.length + (b :: bs).length + 1) (d ++ value)
        else .write_out_of_range
      | none =>
        expand_loop env (u ++ '$' :: (b :: bs) ++ v) steps (u.length + (b :: bs).length + 1) d := by
  have hname : ∀ c ∈ b :: bs, VALID_VAR c = true := by
    intro c hc
    rcases List.mem_cons.mp hc with rfl | hc
    · exact VALID_VAR_of_begin _ hb
    · exact hbs c hc
  have hcap := capture_loop_name (u ++ '$' :: (b :: bs) ++ v) (b :: bs) (u ++ ['$']) v []
    u.length ((u ++ '$' :: (b :: bs) ++ v).length + 1) (by simp) (by simp) hname hv0
    (by simp at hlen ⊢; omega) (by simp; omega)
  have h0 : char_at (u ++ '$' :: (b :: bs) ++ v) u.length = some '$' := by
    rw [List.append_assoc, List.cons_append]
    exact char_at_append_zero u '$' _
  have h1 : char_at (u ++ '$' :: (b :: bs) ++ v) (u.length + 1) = some b := by
    rw [List.append_assoc, List.cons_append, List.cons_append]
    exact char_at_append_one u '$' b _
  have hd : ('$' : Char) ≠ NUL := by decide
  rw [expand_loop, h0]
  simp only [hd, if_false, if_true, h1, hb, hcap, List.nil_append, hlen]

/-- What one iteration of the second pass writes into `newtok` for a token
`u ++ $NAME ++ v`, where NAME is an identifier (a letter or underscore followed
by letters, digits and underscores) shorter than 128 characters, `u` and `v`
contain no `$`, no backslash (and no NUL), and `v` is empty or starts with a
character that is not a letter, digit or underscore: `u ++ value ++ v` when
NAME is set to `value` in the environment and `u ++ v` when NAME is unset, the
result fitting the 1024-byte buffer.  This is the content of `newtok` when the
iteration ends, not the text of the token afterwards: see `process_tokens`. -/
theorem expand_token_variable (env : Env) (u v : CString) (b : Char) (bs : CString)
    (hb : VALID_VAR_BEGIN b = true) (hbs : ∀ c ∈ bs, VALID_VAR c = true)
    (hlen : (b :: bs).length < 128)
    (hu : ∀ c ∈ u, c ≠ '$' ∧ c ≠ '\\' ∧ c ≠ NUL)
    (hv : ∀ c ∈ v, c ≠ '$' ∧ c ≠ '\\' ∧ c ≠ NUL)
    (hv0 : ∀ x, v.head? = some x → VALID_VAR x = false) :
    (∀ value : CString, env (b :: bs) = some value → (u ++ value ++ v).length < 1024 →
        expand_token env (u ++ '$' :: (b :: bs) ++ v) = .ok (u ++ value ++ v)) ∧
      (env (b :: bs) = none → (u ++ v).length < 1024 →
        expand_token env (u ++ '$' :: (b :: bs) ++ v) = .ok (u ++ v)) := by
  have hcontains : (u ++ '$' :: (b :: bs) ++ v).contains '$' = true := by simp
  have hsteps : (u ++ '$' :: (b :: bs) ++ v).length + 1 =
      (((b :: bs).length + 1 + v.length) + 1) + u.length := by
    simp only [List.length_append, List.length_cons]; omega
  have htok : [] ++ u ++ ('$' :: (b :: bs) ++ v) = u ++ '$' :: (b :: bs) ++ v := by simp
  have hfin : u.length + (b :: bs).length + 1 + v.length =
      (u ++ '$' :: (b :: bs) ++ v).length := by
    simp only [List.length_append, List.length_cons]; omega
  have hpre : (u ++ '$' :: (b :: bs)).length = u.length + (b :: bs).length + 1 := by
    simp only [List.length_append, List.length_cons]; omega
  have hcopy_u := fun h => expand_loop_copy env u [] ('$' :: (b :: bs) ++ v) []
    (((b :: bs).length + 1 + v.length) + 1) hu h
  rw [htok] at hcopy_u
  simp only [List.length_nil, Nat.zero_add, List.nil_append] at hcopy_u
  have hdollar := fun d => expand_loop_dollar env u v b bs hb hbs hlen hv0
    ((b :: bs).length + 1 + v.length) d
  have hcopy_v := fun d h => expand_loop_copy env v (u ++ '$' :: (b :: bs)) [] d
    ((b :: bs).length + 1) hv h
  rw [List.append_nil, hpre, hfin] at hcopy_v
  have hend := fun d h => expand_loop_end env (u ++ '$' :: (b :: bs) ++ v) d (b :: bs).length h
  constructor
  · intro value henv hfit
    have hfit1 : u.length + value.length + v.length < 1024 := by
      simpa only [List.length_append] using hfit
    rw [expand_token, if_pos hcontains, hsteps, hcopy_u (by omega), hdollar u, henv]
    simp only
    rw [if_pos (by omega), hcopy_v (u ++ value) (by simp only [List.length_append]; omega),
      hend (u ++ value ++ v) hfit]
  · intro henv hfit
    have hfit1 : u.length + v.length < 1024 := by
      simpa only [List.length_append] using hfit
    rw [expand_token, if_pos hcontains, hsteps, hcopy_u (by omega), hdollar u, henv]
    simp only
    rw [hcopy_v u (by omega), hend (u ++ v) hfit]

/-- In an environment where only `FOO` is set, to `bar`, the iteration on the
token `$FOO` writes `bar` into `newtok` and the iteration on `$UNSET_VAR`
writes the empty string. -/
theorem expand_token_variable_example :
    expand_token (fun n => if n = "FOO".toList then some "bar".toList else none)
        "$FOO".toList = .ok "bar".toList ∧
      expand_token (fun n => if n = "FOO".toList then some "bar".toList else none)
        "$UNSET_VAR".toList = .ok [] :=
  ⟨(expand_token_variable (fun n => if n = "FOO".toList then some "bar".toList else none)
      [] [] 'F' "OO".toList (by decide) (by decide) (by decide) (by decide) (by decide)
      (by decide)).1 "bar".toList (by decide) (by decide),
   (expand_token_variable (fun n => if n = "FOO".toList then some "bar".toList else none)
      [] [] 'U' "NSET_VAR".toList (by decide) (by decide) (by decide) (by decide) (by decide)
      (by decide)).2 (by decide) (by decide)⟩

/-! ## The execution engine -/

theorem apply_redirection_trace (w : World) (fd : Nat) (path : Option CString)
    (tr tr1 : List Event) (h : apply_redirection w fd path tr = (none, tr1)) :
    ∃ redirs : List Event, tr1 = tr ++ redirs ∧
      ∀ e ∈ redirs, ∃ (n : Nat) (p : CString), e = Event.redirect n p := by
  cases path with
  | none =>
    simp only [apply_redirection, Prod.mk.injEq, true_and] at h
    exact ⟨[], by simp [h]⟩
  | some p =>
    simp only [apply_redirection] at h
    cases hr : w.redirect_fails tr fd p with
    | some v => simp [hr] at h
    | none =>
      simp only [hr, Prod.mk.injEq, true_and] at h
      exact ⟨[Event.redirect fd p], h.symm, by simp⟩

theorem execute_nonbuiltin_trace (w : World) (s : simple_command) (tr tr1 : List Event)
    (st : WaitStatus) (h : execute_nonbuiltin w s tr = (Flow.terminates st, tr1)) :
    ∃ redirs : List Event, tr1 = tr ++ redirs ++ [Event.exec s.tokens] ∧
      ∀ e ∈ redirs, ∃ (n : Nat) (p : CString), e = Event.redirect n p := by
  unfold execute_nonbuiltin at h
  rcases h0 : apply_redirection w 0 s.inp tr with ⟨v0, t0⟩
  rw [h0] at h
  cases v0 with
  | some v => simp at h
  | none =>
    rcases h1 : apply_redirection w 1 s.out t0 with ⟨v1, t1⟩
    simp only [h1] at h
    cases v1 with
    | some v => simp at h
    | none =>
      rcases h2 : apply_redirection w 2 s.err t1 with ⟨v2, t2⟩
      simp only [h2] at h
      cases v2 with
      | some v => simp at h
      | none =>
        simp only [Prod.mk.injEq, Flow.terminates.injEq] at h
        obtain ⟨a0, e0, f0⟩ := apply_redirection_trace w 0 s.inp tr t0 h0
        obtain ⟨a1, e1, f1⟩ := apply_redirection_trace w 1 s.out t0 t1 h1
        obtain ⟨a2, e2, f2⟩ := apply_redirection_trace w 2 s.err t1 t2 h2
        refine ⟨a0 ++ a1 ++ a2, ?_, ?_⟩
        · rw [← h.2, e2, e1, e0]
          simp
        · intro e he
          simp only [List.mem_append] at he
          rcases he with (he | he) | he
          · exact f0 e he
          · exact f1 e he
          · exact f2 e he

theorem execute_leaf (w : World) (k : WaitStatus) (s : simple_command)
    (lo : CString) (l1 l2 : Option command) (tr : List Event) :
    execute_complex_command w k (command.mk (some s) lo l1 l2) tr =
      if s.builtin ≠ 0 then (Flow.returns 0, tr)
      else
        match execute_nonbuiltin w s tr with
        | (Flow.returns _, tr) => (Flow.returns 0, tr)
        | (Flow.terminates st, tr) => (Flow.terminates st, tr) := rfl

theorem execute_node_both (w : World) (k : WaitStatus) (oper : CString) (l r : command)
    (tr : List Event) :
    execute_complex_command w k (command.mk none oper (some l) (some r)) tr =
        if read_oper w tr oper = ['|'] then
          (if w.pipe_fails tr then (Flow.returns EXIT_FAILURE, tr)
          else if w.fork_fails (tr ++ [Event.pipe]) then
            (Flow.returns EXIT_FAILURE, tr ++ [Event.pipe])
          else
            let c1 : WaitStatus × List Event :=
              if w.dup2_fails (tr ++ [Event.pipe, Event.fork]) then
                (k, tr ++ [Event.pipe, Event.fork])
              else
                let r1 := execute_complex_command w (.exited EXIT_FAILURE) l
                  (tr ++ [Event.pipe, Event.fork])
                (child_status r1.1, r1.2)
            if w.fork_fails c1.2 then (Flow.returns EXIT_FAILURE, c1.2)
            else
              let c2 : WaitStatus × List Event :=
                if w.dup2_fails (c1.2 ++ [Event.fork]) then (k, c1.2 ++ [Event.fork])
                else
                  let r2 := execute_complex_command w (.exited EXIT_FAILURE) r
                    (c1.2 ++ [Event.fork])
                  (child_status r2.1, r2.2)
              match c1.1, c2.1 with
              | .exited _, .exited st2 => (Flow.returns st2, c2.2)
              | _, _ => (Flow.returns EXIT_FAILURE, c2.2))
        else if read_oper w tr oper = ['&'] then
          (if w.fork_fails tr then (Flow.returns EXIT_FAILURE, tr)
          else
            let r1 := execute_complex_command w (.exited EXIT_FAILURE) l (tr ++ [Event.fork])
            if w.fork_fails r1.2 then (Flow.returns EXIT_FAILURE, r1.2)
            else
              let r2 := execute_complex_command w (.exited EXIT_FAILURE) r
                (r1.2 ++ [Event.fork])
              (Flow.returns (exit_code (child_status r2.1)), r2.2))
        else if read_oper w tr oper = [';'] || read_oper w tr oper = ['&', '&'] || read_oper w tr oper = ['|', '|'] then
          (if w.fork_fails tr then (Flow.returns EXIT_FAILURE, tr)
          else
            let r1 := execute_complex_command w (.exited EXIT_FAILURE) l (tr ++ [Event.fork])
            if w.wait_fails r1.2 then (Flow.returns EXIT_FAILURE, r1.2)
            else
              match wait_status w r1.2 (child_status r1.1) with
              | .signaled _ => (Flow.returns EXIT_FAILURE, r1.2)
              | .exited status =>
                if read_oper w tr oper = ['&', '&'] ∧ status ≠ 0 then (Flow.returns status, r1.2)
                else if read_oper w tr oper = ['|', '|'] ∧ status = 0 then (Flow.returns status, r1.2)
                else if w.fork_fails r1.2 then (Flow.returns EXIT_FAILURE, r1.2)
                else
                  let r2 := execute_complex_command w (.exited EXIT_FAILURE) r
                    (r1.2 ++ [Event.fork])
                  (Flow.returns (exit_code (child_status r2.1)), r2.2))
        else (Flow.returns 0, tr) := rfl

theorem execute_node_left_absent (w : World) (k : WaitStatus) (oper : CString)
    (cmd2 : Option command) (tr : List Event) :
    execute_complex_command w k (command.mk none oper none cmd2) tr =
      if read_oper w tr oper = ['|'] then (Flow.returns EXIT_FAILURE, tr ++ [Event.incomplete])
      else if read_oper w tr oper = ['&'] then (Flow.returns EXIT_FAILURE, tr ++ [Event.incomplete])
      else if read_oper w tr oper = [';'] || read_oper w tr oper = ['&', '&'] || read_oper w tr oper = ['|', '|'] then
        (Flow.returns EXIT_FAILURE, tr ++ [Event.incomplete])
      else (Flow.returns 0, tr) := by
  cases cmd2 <;> rfl

theorem execute_node_right_absent (w : World) (k : WaitStatus) (oper : CString)
    (l : command) (tr : List Event) :
    execute_complex_command w k (command.mk none oper (some l) none) tr =
      if read_oper w tr oper = ['|'] then (Flow.returns EXIT_FAILURE, tr ++ [Event.incomplete])
      else if read_oper w tr oper = ['&'] then
        (if w.fork_fails tr then (Flow.returns EXIT_FAILURE, tr)
        else
          (Flow.returns 0,
            (execute_complex_command w (.exited EXIT_FAILURE) l (tr ++ [Event.fork])).2))
      else if read_oper w tr oper = [';'] || read_oper w tr oper = ['&', '&'] || read_oper w tr oper = ['|', '|'] then
        (Flow.returns EXIT_FAILURE, tr ++ [Event.incomplete])
      else (Flow.returns 0, tr) := rfl

theorem read_oper_terminated (w : World) (tr : List Event) (oper : List Char)
    (h : w.oper_tail tr = []) : read_oper w tr oper = oper := by
  unfold read_oper
  split
  · rfl
  · rw [h, List.append_nil]

theorem execute_short_circuit_terminated (w : World) (k : WaitStatus) (s : simple_command)
    (lo : CString) (l1 l2 : Option command) (r : command) (tr tr1 : List Event) (st : Int)
    (htail : w.oper_tail tr = [])
    (hs : s.builtin = 0) (hfork : w.fork_fails tr = false)
    (hleft : execute_nonbuiltin w s (tr ++ [Event.fork]) =
      (Flow.terminates (WaitStatus.exited st), tr1))
    (hwait : w.wait_fails tr1 = false) (hother : w.wait_other tr1 = none) :
    (st ≠ 0 →
        execute_complex_command w k
          (command.mk none ['&', '&'] (some (command.mk (some s) lo l1 l2)) (some r)) tr =
          (Flow.returns st, tr1)) ∧
      (st = 0 →
        execute_complex_command w k
          (command.mk none ['|', '|'] (some (command.mk (some s) lo l1 l2)) (some r)) tr =
          (Flow.returns 0, tr1)) ∧
      (w.fork_fails tr1 = false →
        execute_complex_command w k
          (command.mk none [';'] (some (command.mk (some s) lo l1 l2)) (some r)) tr =
          (Flow.returns (exit_code (child_status
              (execute_complex_command w (WaitStatus.exited EXIT_FAILURE) r
                (tr1 ++ [Event.fork])).1)),
            (execute_complex_command w (WaitStatus.exited EXIT_FAILURE) r
              (tr1 ++ [Event.fork])).2)) := by
  have hleaf : execute_complex_command w (WaitStatus.exited EXIT_FAILURE)
      (command.mk (some s) lo l1 l2) (tr ++ [Event.fork]) =
      (Flow.terminates (WaitStatus.exited st), tr1) := by
    rw [execute_leaf, hleft]
    simp [hs]
  have hrd : ∀ o : List Char, read_oper w tr o = o := fun o =>
    read_oper_terminated w tr o htail
  refine ⟨?_, ?_, ?_⟩
  · intro hst
    rw [execute_node_both]
    simp [hrd, hfork, hleaf, hwait, hother, wait_status, child_status, hst]
  · intro hst
    rw [execute_node_both]
    simp [hrd, hfork, hleaf, hwait, hother, wait_status, child_status, hst]
  · intro hfork2
    rw [execute_node_both]
    simp [hrd, hfork, hleaf, hwait, hother, wait_status, child_status, hfork2]

theorem execute_incomplete_terminated (w : World) (k : WaitStatus) (op : CString)
    (cmd1 cmd2 : Option command) (tr : List Event) (htail : w.oper_tail tr = [])
    (hop : op = ['|'] ∨ op = [';'] ∨ op = ['&', '&'] ∨ op = ['|', '|'])
    (habs : cmd1 = none ∨ cmd2 = none) :
    execute_complex_command w k (command.mk none op cmd1 cmd2) tr =
      (Flow.returns EXIT_FAILURE, tr ++ [Event.incomplete]) := by
  have hrd : ∀ o : List Char, read_oper w tr o = o := fun o =>
    read_oper_terminated w tr o htail
  cases cmd1 with
  | none =>
    rw [execute_node_left_absent]
    rcases hop with h | h | h | h <;> subst h <;> simp [hrd]
  | some l =>
    have hb : cmd2 = none := by simpa using habs
    subst hb
    rw [execute_node_right_absent]
    rcases hop with h | h | h | h <;> subst h <;> simp [hrd]

/-! ## Expanded tokens and the buffer `newtok` -/

/-- C6, the code on the line `echo $A $B` with `A=1` and `B=2`: the iteration
on the token `$A` writes `1` into `newtok` and stores the address of `newtok`
as the token; the iteration on `$B` writes `2` into the same buffer and stores
the same address.  When the loop ends both tokens read `2`: the token `$A` has
not become `1`. -/
theorem expanded_tokens_share_newtok :
    parse_line "echo $A $B".toList = ["echo".toList, "$A".toList, "$B".toList] ∧
      expand_token env_ab "$A".toList = .ok ['1'] ∧
      expand_token env_ab "$B".toList = .ok ['2'] ∧
      process_tokens env_ab (parse_line "echo $A $B".toList) =
        .ok ["echo".toList, ['2'], ['2']] := by
  decide

/-! ## Operator nodes whose `oper` has no terminator -/

/-- C7, the code on the tree of `false && echo hi`, where `false` exits with
status 1: when the byte after the two stored characters `&&` is not zero, no
`strcmp` of `execute_complex_command` matches, nothing is forked and the call
returns 0 instead of the status of `false`.  With a zero byte there, the same
tree returns 1 after launching `false` only, provided `wait` collects the
child just forked; when `wait` (shell.c:430) collects a child that an earlier
`cmd &` left behind with status 0, `echo` is launched although `false` exits
with status 1. -/
theorem short_circuit_needs_terminated_oper :
    construct_command ["false".toList, "&&".toList, "echo".toList, "hi".toList] =
        some (command.mk none ['&', '&']
          (some (command.mk (some (external ["false".toList])) [] none none))
          (some (command.mk (some (external ["echo".toList, "hi".toList])) [] none none))) ∧
      execute_line stray_byte_world (WaitStatus.exited 0)
        (command.mk none ['&', '&']
          (some (command.mk (some (external ["false".toList])) [] none none))
          (some (command.mk (some (external ["echo".toList, "hi".toList])) [] none none)))
        [] = (Flow.returns 0, []) ∧
      execute_line calm_world (WaitStatus.exited 0)
        (command.mk none ['&', '&']
          (some (command.mk (some (external ["false".toList])) [] none none))
          (some (command.mk (some (external ["echo".toList, "hi".toList])) [] none none)))
        [] = (Flow.returns 1, [Event.fork, Event.exec ["false".toList]]) ∧
      (execute_line stale_child_world (WaitStatus.exited 0)
        (command.mk none ['&', '&']
          (some (command.mk (some (external ["false".toList])) [] none none))
          (some (command.mk (some (external ["echo".toList, "hi".toList])) [] none none)))
        []).2 = [Event.fork, Event.exec ["false".toList], Event.fork,
          Event.exec ["echo".toList, "hi".toList]] := by
  refine ⟨rfl, ?_, ?_, ?_⟩ <;> decide

/-- C8, the code on the tree of `ls &&` (nothing after the operator): when the
byte after the two stored characters `&&` is not zero, no `strcmp` of
`execute_complex_command` matches and the call returns 0 without reporting
the incomplete command, instead of `EXIT_FAILURE`; nothing is forked.  With a
zero byte there, the same tree is reported and gives `EXIT_FAILURE`. -/
theorem incomplete_and_node_returns_zero :
    construct_command ["ls".toList, "&&".toList] =
        some (command.mk none ['&', '&']
          (some (command.mk (some (external ["ls".toList])) [] none none)) none) ∧
      execute_line stray_byte_world (WaitStatus.exited 0)
        (command.mk none ['&', '&']
          (some (command.mk (some (external ["ls".toList])) [] none none)) none) [] =
        (Flow.returns 0, []) ∧
      execute_line calm_world (WaitStatus.exited 0)
        (command.mk none ['&', '&']
          (some (command.mk (some (external ["ls".toList])) [] none none)) none) [] =
        (Flow.returns EXIT_FAILURE, [Event.incomplete]) := by
  refine ⟨rfl, ?_, ?_⟩ <;> decide

/-! ## A redirection without target inside a line with control operators -/

theorem split_operator_of_complex (tokens : List CString)
    (h : is_complex_command tokens = true) :
    ∃ (L R : List CString) (op : CString), tokens = L ++ op :: R ∧ is_operator op = true ∧
      ∀ t ∈ L, is_operator t = false := by
  induction tokens with
  | nil => simp [is_complex_command] at h
  | cons t ts ih =>
    by_cases ht : is_operator t = true
    · exact ⟨[], ts, t, rfl, ht, by simp⟩
    · simp only [Bool.not_eq_true] at ht
      simp only [is_complex_command, ht] at h
      obtain ⟨L, R, op, e1, e2, e3⟩ := ih (by simpa using h)
      refine ⟨t :: L, R, op, by simp [e1], e2, ?_⟩
      intro x hx
      rcases List.mem_cons.mp hx with rfl | hx
      · exact ht
      · exact e3 x hx

theorem construct_command_run_none_iff (tokens : List CString) (hne : tokens ≠ [])
    (hop : ∀ t ∈ tokens, is_operator t = false) :
    construct_command tokens = none ↔ dangling_redirection tokens = true := by
  match tokens, hne with
  | t0 :: ts, _ =>
    have hc : is_complex_command (t0 :: ts) = false :=
      (is_complex_command_eq_false_iff _).mpr hop
    have key := extract_scan_eq_none_iff (t0 :: ts).length (t0 :: ts) (le_refl _)
      { inp := none, out := none, err := none, tokens := [], builtin := is_builtin t0 }
    rw [construct_command_simple t0 ts hc, ← key]
    cases hs : extract_scan (t0 :: ts)
        { inp := none, out := none, err := none, tokens := [], builtin := is_builtin t0 } with
    | none => simp [extract_redirections, hs]
    | some c => simp [extract_redirections, hs]

/-- C10, the code on the tokens `ls & cat <`: the run `cat <` has a
redirection operator without target, so the recursive call on it reports the
error and returns NULL (parser.c:191-195); the calling `construct_command`
stores that result untested (parser.c:213-214) and returns a tree, the
Background node whose right child is absent, and executing it forks a child
that launches `ls`. -/
theorem dangling_redirection_keeps_tree :
    dangling_redirection ["cat".toList, "<".toList] = true ∧
      construct_command ["ls".toList, "&".toList, "cat".toList, "<".toList] =
        some (command.mk none ['&']
          (some (command.mk (some (external ["ls".toList])) [] none none)) none) ∧
      execute_complex_command calm_world (WaitStatus.exited 0)
        (command.mk none ['&']
          (some (command.mk (some (external ["ls".toList])) [] none none)) none) [] =
        (Flow.returns 0, [Event.fork, Event.exec ["ls".toList]]) :=
  ⟨by decide, rfl, rfl⟩

/-! ## The post-processor on escaped and bare dollar signs -/

/-- C11, the code on the line `\$HOME` with `HOME=/root`: `parse_line` yields
the single token `\$HOME`; the first pass of `process_tokens` drops the
backslash (the `default` case of its `switch`) and leaves `$HOME`; the second
pass then expands the variable, so the result is the token `/root`, not the
literal `$HOME`.  Only the doubled backslash `\\$HOME` reaches the second pass
as `\$HOME` and yields the literal `$HOME`. -/
theorem escaped_dollar_is_expanded :
    parse_line "\\$HOME".toList = ["\\$HOME".toList] ∧
      dequote "\\$HOME".toList = .ok "$HOME".toList ∧
      process_tokens env_home (parse_line "\\$HOME".toList) = .ok ["/root".toList] ∧
      process_tokens env_home (parse_line "\\\\$HOME".toList) = .ok ["$HOME".toList] := by
  decide

/-- C13, the code on the tokens `$1` and `a$`: in the second pass a `$` that is
not followed by a letter or underscore is not copied to the output (the
`if (*s == '$')` branch has no action for it), so `$1` becomes `1` and `a$`
becomes `a`. -/
theorem bare_dollar_is_dropped :
    expand_token env_home "$1".toList = .ok "1".toList ∧
      expand_token env_home "a$".toList = .ok "a".toList := by
  decide

/-! ## The tokenizer on adjacent spaces inside a quoted span -/

/-- C18, the code on the line `"a  b"` (two spaces inside the quotes): the
look-ahead `if (*line == ' ' && in_str) line++;` passes over one space only,
the second space ends the token, and `parse_line` yields the two tokens `"a `
and `b"` instead of the single token `"a  b"`. -/
theorem adjacent_quoted_spaces_split :
    parse_line "\"a  b\"".toList = ["\"a ".toList, "b\"".toList] := by
  decide

/-! ## The builtin tag of a leaf with a leading redirection -/

/-- C20, the code on the tokens `<`, `f`, `cd`, `/tmp`: the Leaf has the
arguments `cd`, `/tmp` and stdin redirected from `f`, but its `builtin` field
is `is_builtin("<") = 0` (the tag is computed from `tokens[0]` before the
redirections are extracted), although `is_builtin("cd")` is `BUILTIN_CD`.
The record is written with its fields in the order `inp`, `out`, `err`,
`tokens`, `builtin`. -/
theorem builtin_tag_from_first_token :
    construct_command ["<".toList, "f".toList, "cd".toList, "/tmp".toList] =
        some (command.mk
          (some ⟨some "f".toList, none, none, ["cd".toList, "/tmp".toList], 0⟩) [] none none) ∧
      is_builtin "cd".toList = BUILTIN_CD ∧ BUILTIN_CD ≠ 0 :=
  ⟨rfl, rfl, by decide⟩

/-! ## The exit code of a nested right side -/

/-- C15, the code on the tree of `true ; true ; true`, i.e.
Sequence(`true`, Sequence(`true`, `true`)), in a world where nothing fails and
`true` exits with status 0: all three commands are launched, the inner
Sequence returns 0 in the child forked for the right side, that child then
calls `exit(EXIT_FAILURE)`, and the call on the whole tree returns 1. -/
theorem nested_sequence_returns_failure :
    execute_complex_command calm_world (WaitStatus.exited 0)
        (command.mk none [';'] (some (command.mk (some (external ["true".toList])) [] none none))
          (some (command.mk none [';']
            (some (command.mk (some (external ["true".toList])) [] none none))
            (some (command.mk (some (external ["true".toList])) [] none none))))) [] =
      (Flow.returns 1,
        [Event.fork, Event.exec ["true".toList], Event.fork, Event.fork,
          Event.exec ["true".toList], Event.fork, Event.exec ["true".toList]]) ∧
      execute_complex_command calm_world (WaitStatus.exited EXIT_FAILURE)
        (command.mk none [';']
          (some (command.mk (some (external ["true".toList])) [] none none))
          (some (command.mk (some (external ["true".toList])) [] none none)))
        [Event.fork, Event.exec ["true".toList], Event.fork] =
      (Flow.returns 0,
        [Event.fork, Event.exec ["true".toList], Event.fork, Event.fork,
          Event.exec ["true".toList], Event.fork, Event.exec ["true".toList]]) := by
  decide

/-! ## The de-quote/unescape pass on every token -/

theorem dequote_loop_suffix (n : Nat) :
    ∀ suf : List Char, suf.length ≤ n → ∀ (pre d : List Char) (steps : Nat),
      suf.length < steps →
      dequote_loop (pre ++ suf) steps pre.length d = .ok (d ++ dequote_ref suf) := by
  induction n using Nat.strong_induction_on with
  | _ n ih =>
    intro suf hlen pre d steps hsteps
    match steps, hsteps with
    | k + 1, hsteps =>
      match suf, hlen, hsteps with
      | [], _, _ =>
        rw [List.append_nil, dequote_loop, char_at_length]
        simp [dequote_ref]
      | [c], hlen, hsteps =>
        have hk : 0 < k := by simp at hsteps; omega
        have hnext := ih 0 (by simp at hlen; omega) [] (le_refl _) (pre ++ [c])
        simp only [List.append_nil, List.length_append, List.length_singleton,
          List.length_nil] at hnext
        rw [dequote_loop, char_at_append_zero]
        by_cases h0 : c = NUL
        · simp [h0, dequote_ref]
        · by_cases h1 : c = '\\'
          · subst h1
            have hN : escape_value NUL = none := by decide
            have hl := char_at_append_last pre '\\'
            simp only [h0, if_false, if_true, hl, hN]
            rw [hnext d k hk]
            simp [dequote_ref]
          · by_cases h2 : c = '"'
            · subst h2
              simp only [h0, h1, if_false, ne_eq, not_true_eq_false]
              rw [hnext d k hk]
              simp [dequote_ref, h0, h1]
            · simp only [h0, h1, h2, if_false, ne_eq, not_false_eq_true, if_true]
              rw [hnext (d ++ [c]) k hk]
              simp [dequote_ref, h0, h1, h2]
      | c :: e :: rest, hlen, hsteps =>
        have hk : (e :: rest).length < k := by simp at hsteps ⊢; omega
        have hk2 : rest.length < k := by simp at hsteps; omega
        have hnext1 := ih (e :: rest).length (by simp at hlen ⊢; omega) (e :: rest) (le_refl _)
          (pre ++ [c])
        have hnext2 := ih rest.length (by simp at hlen; omega) rest (le_refl _) (pre ++ [c, e])
        simp only [List.length_append, List.length_singleton, List.append_assoc,
          List.singleton_append, List.length_cons, List.length_nil, List.cons_append,
          List.nil_append] at hnext1 hnext2
        rw [dequote_loop, char_at_append_zero]
        by_cases h0 : c = NUL
        · simp [h0, dequote_ref]
        · by_cases h1 : c = '\\'
          · subst h1
            have hl := char_at_append_one pre '\\' e rest
            simp only [h0, if_false, if_true, hl]
            cases hv : escape_value e with
            | none =>
              simp only []
              rw [hnext1 d k hk]
              simp [dequote_ref, hv, h0]
            | some x =>
              simp only []
              rw [hnext2 (d ++ [x]) k hk2]
              simp [dequote_ref, hv, h0]
          · by_cases h2 : c = '"'
            · subst h2
              simp only [h0, h1, if_false, ne_eq, not_true_eq_false]
              rw [hnext1 d k hk]
              simp [dequote_ref, h0, h1]
            · simp only [h0, h1, h2, if_false, ne_eq, not_false_eq_true, if_true]
              rw [hnext1 (d ++ [c]) k hk]
              simp [dequote_ref, h0, h1, h2]

theorem dequote_eq_ref (token : CString) : dequote token = .ok (dequote_ref token) := by
  have h := dequote_loop_suffix token.length token (le_refl _) [] []
    (token.length + 1) (Nat.lt_succ_self _)
  simpa [dequote] using h

theorem dequote_ref_append (n : Nat) :
    ∀ t1 : List Char, t1.length ≤ n → NUL ∉ t1 → pairing_complete t1 = true →
      ∀ x : List Char, dequote_ref (t1 ++ x) = dequote_ref t1 ++ dequote_ref x := by
  have hqN : ('"' : Char) ≠ NUL := by decide
  have hqB : ('"' : Char) ≠ '\\' := by decide
  have hbN : ('\\' : Char) ≠ NUL := by decide
  induction n using Nat.strong_induction_on with
  | _ n ih =>
    intro t1 hlen hz hp x
    match t1, hlen, hz, hp with
    | [], _, _, _ => simp [dequote_ref]
    | [c], _, hz, hp =>
      have h0 : c ≠ NUL := fun e => hz (by simp [e])
      have h1 : c ≠ '\\' := by simpa [pairing_complete] using hp
      cases x with
      | nil => simp [dequote_ref]
      | cons e rest =>
        by_cases h2 : c = '"'
        · subst h2
          simp [dequote_ref, hqN, hqB]
        · simp [dequote_ref, h0, h1, h2]
    | c :: e :: rest, hlen, hz, hp =>
      have h0 : c ≠ NUL := fun h => hz (by simp [h])
      have hz1 : NUL ∉ e :: rest := fun hm => hz (List.mem_cons_of_mem _ hm)
      have hz2 : NUL ∉ rest := fun hm => hz1 (List.mem_cons_of_mem _ hm)
      have ih1 := fun hp1 => ih (e :: rest).length (by simp at hlen ⊢; omega) (e :: rest)
        (le_refl _) hz1 hp1 x
      have ih2 := fun hp2 => ih rest.length (by simp at hlen; omega) rest (le_refl _) hz2 hp2 x
      simp only [List.cons_append] at ih1 ⊢
      by_cases h1 : c = '\\'
      · subst h1
        simp only [pairing_complete, if_true, ← escape_value_eq_lookup] at hp
        cases hv : escape_value e with
        | none =>
          simp only [hv, Option.isSome_none, Bool.false_eq_true, if_false] at hp
          simp [dequote_ref, hbN, hv, ih1 hp]
        | some v =>
          simp only [hv, Option.isSome_some, if_true] at hp
          simp [dequote_ref, hbN, hv, ih2 hp]
      · simp only [pairing_complete, h1, if_false] at hp
        by_cases h2 : c = '"'
        · subst h2
          simp [dequote_ref, hqN, hqB, ih1 hp]
        · simp [dequote_ref, h0, h1, h2, ih1 hp]

theorem dequote_ref_stray_backslash (t2 : List Char)
    (h2 : ∀ e, t2.head? = some e → escape_table.lookup e = none) :
    dequote_ref ('\\' :: t2) = dequote_ref t2 := by
  have hb : ('\\' : Char) ≠ NUL := by decide
  cases t2 with
  | nil => simp [dequote_ref, hb]
  | cons e rest =>
    have hv : escape_value e = none := by
      rw [escape_value_eq_lookup]
      exact h2 e rfl
    simp [dequote_ref, hb, hv]

/-- C12, counterexample: the de-quote/unescape pass turns the token `a\qb`
into `aqb`; the backslash is not emitted. -/
theorem unrecognised_backslash_not_emitted :
    dequote "a\\qb".toList = .ok "aqb".toList ∧
      dequote "a\\qb".toList ≠ .ok "a\\qb".toList := by
  decide

/-- C12, amended: in the de-quote/unescape pass a backslash that is followed
neither by a recognised escape character (`"`, a, b, f, n, r, t, v, backslash)
nor by `$` or a space is dropped, and the character after it is processed
normally.  For every token `t1 ++ \ ++ t2` in which the pairing of backslashes
ends at the end of `t1` (so this backslash starts a new pair) and `t2` is
empty or starts with a character that is not a recognised escape character,
not `$` and not a space, the pass gives the same result as on `t1 ++ t2`, the
token without that backslash.  A backslash before `$` or a space, which the
second pass has cases for, is left out of the statement. -/
theorem dequote_drops_stray_backslash (t1 t2 : CString) (hz : NUL ∉ t1)
    (hp : pairing_complete t1 = true)
    (h2 : ∀ e, t2.head? = some e → escape_table.lookup e = none ∧ e ≠ '$' ∧ e ≠ ' ') :
    dequote (t1 ++ '\\' :: t2) = dequote (t1 ++ t2) := by
  rw [dequote_eq_ref, dequote_eq_ref]
  rw [dequote_ref_append t1.length t1 (le_refl _) hz hp,
    dequote_ref_append t1.length t1 (le_refl _) hz hp,
    dequote_ref_stray_backslash t2 (fun e he => (h2 e he).1)]

/-- Witness for the amended C12 on the token `a\qb`. -/
theorem dequote_drops_stray_backslash_witness :
    dequote ("a".toList ++ '\\' :: "qb".toList) = dequote ("a".toList ++ "qb".toList) :=
  dequote_drops_stray_backslash "a".toList "qb".toList (by decide) (by decide)
    (by intro e he; simp at he; subst he; decide)

/-! ## The argument list of a Leaf -/

theorem leaves_node (op : CString) (a b : Option command) :
    (command.mk none op a b).leaves = leaves_of a ++ leaves_of b := by
  cases a <;> cases b <;> simp [command.leaves, leaves_of]

theorem leaves_leaf (s : simple_command) (op : CString) (a b : Option command) :
    (command.mk (some s) op a b).leaves = [s] := by
  simp [command.leaves]

theorem redirection_step_keeps (t : CString) (nxt : Option CString)
    (cmd cmd1 : simple_command) (b : Bool)
    (h : redirection_step t nxt cmd = some (cmd1, b)) (hc : cmd.redirected = true) :
    cmd1.redirected = true := by
  by_cases hr : is_redirection t = true
  · cases nxt with
    | none => rw [redirection_step_dangling t cmd hr] at h; exact absurd h (by simp)
    | some x =>
      simp only [is_redirection, Bool.or_eq_true, decide_eq_true_eq] at hr
      simp only [simple_command.redirected, Bool.or_eq_true] at hc ⊢
      rcases hr with ((hr | hr) | hr) | hr <;> subst hr <;>
        simp [redirection_step] at h <;> obtain ⟨h1, _⟩ := h <;> subst h1 <;> simp_all
  · simp only [Bool.not_eq_true] at hr
    rw [redirection_step_plain t nxt cmd hr] at h
    simp only [Option.some.injEq, Prod.mk.injEq] at h
    rw [← h.1]
    exact hc

theorem redirection_step_sets (t x : CString) (cmd cmd1 : simple_command) (b : Bool)
    (hr : is_redirection t = true)
    (h : redirection_step t (some x) cmd = some (cmd1, b)) : cmd1.redirected = true := by
  simp only [is_redirection, Bool.or_eq_true, decide_eq_true_eq] at hr
  simp only [simple_command.redirected, Bool.or_eq_true]
  rcases hr with ((hr | hr) | hr) | hr <;> subst hr <;>
    simp [redirection_step] at h <;> obtain ⟨h1, _⟩ := h <;> subst h1 <;> simp

theorem extract_scan_keeps (n : Nat) :
    ∀ (tokens : List CString), tokens.length ≤ n → ∀ cmd cmd1 : simple_command,
      extract_scan tokens cmd = some cmd1 → cmd.redirected = true →
      cmd1.redirected = true := by
  induction n using Nat.strong_induction_on with
  | _ n ih =>
    intro tokens hlen cmd cmd1 h hc
    match tokens, hlen, h with
    | [], _, h =>
      simp only [extract_scan, Option.some.injEq] at h
      rw [← h]; exact hc
    | [t], _, h =>
      simp only [extract_scan] at h
      cases hs : redirection_step t none cmd with
      | none => simp [hs] at h
      | some v =>
        obtain ⟨c2, b⟩ := v
        simp only [hs, Option.some.injEq] at h
        rw [← h]
        exact redirection_step_keeps t none cmd c2 b hs hc
    | t :: x :: rest, hlen, h =>
      simp only [extract_scan] at h
      cases hs : redirection_step t (some x) cmd with
      | none => simp [hs] at h
      | some v =>
        obtain ⟨c2, b⟩ := v
        have hc2 := redirection_step_keeps t (some x) cmd c2 b hs hc
        simp only [hs] at h
        cases b with
        | true =>
          simp only [if_true] at h
          exact ih rest.length (by simp at hlen; omega) rest (le_refl _) c2 cmd1 h hc2
        | false =>
          simp only [Bool.false_eq_true, if_false] at h
          exact ih (x :: rest).length (by simp at hlen ⊢; omega) (x :: rest) (le_refl _)
            c2 cmd1 h hc2

theorem extract_redirections_arguments (t0 : CString) (ts : List CString)
    (cmd s : simple_command) (h : extract_redirections (t0 :: ts) cmd = some s) :
    s.tokens ≠ [] ∨ s.redirected = true := by
  unfold extract_redirections at h
  cases hs : extract_scan (t0 :: ts) cmd with
  | none => simp [hs] at h
  | some c1 =>
    simp only [hs, Option.some.injEq] at h
    subst h
    by_cases hr : is_redirection t0 = true
    · right
      cases ts with
      | nil =>
        simp only [extract_scan, redirection_step_dangling t0 cmd hr] at hs
        exact absurd hs (by simp)
      | cons x rest =>
        obtain ⟨c2, h2⟩ := redirection_step_target t0 x cmd hr
        simp only [extract_scan, h2, if_true] at hs
        have hc2 := redirection_step_sets t0 x cmd c2 true hr h2
        have := extract_scan_keeps rest.length rest (le_refl _) c2 c1 hs hc2
        simpa [simple_command.redirected] using this
    · left
      simp only [Bool.not_eq_true] at hr
      cases ts with
      | nil => simp [extract_copy, hr]
      | cons x rest => simp [extract_copy, hr]

theorem construct_aux_leaves (fuel : Nat) :
    ∀ (tokens : List CString) (c : command), construct_aux fuel tokens = some c →
      ∀ s ∈ c.leaves, s.tokens ≠ [] ∨ s.redirected = true := by
  induction fuel with
  | zero => intro tokens c h; simp [construct_aux] at h
  | succ f ih =>
    intro tokens c h s hs
    cases tokens with
    | nil => simp [construct_aux] at h
    | cons t0 ts =>
      rw [construct_aux_cons] at h
      by_cases hc : is_complex_command (t0 :: ts) = true
      · simp only [hc, if_true] at h
        cases hsp : split_operator (t0 :: ts) with
        | none => simp [hsp] at h
        | some v =>
          obtain ⟨t1, op, t2⟩ := v
          simp only [hsp, Option.some.injEq] at h
          subst h
          rw [leaves_node, List.mem_append] at hs
          rcases hs with hs | hs
          · cases h1 : construct_aux f t1 with
            | none => simp [h1, leaves_of] at hs
            | some c1 =>
              rw [h1] at hs
              exact ih t1 c1 h1 s hs
          · cases h2 : construct_aux f t2 with
            | none => simp [h2, leaves_of] at hs
            | some c2 =>
              rw [h2] at hs
              exact ih t2 c2 h2 s hs
      · simp only [hc, Bool.false_eq_true, if_false] at h
        cases he : extract_redirections (t0 :: ts)
            { inp := none, out := none, err := none, tokens := [],
              builtin := is_builtin t0 } with
        | none => simp [he] at h
        | some s1 =>
          simp only [he, Option.some.injEq] at h
          subst h
          rw [leaves_leaf, List.mem_singleton] at hs
          subst hs
          exact extract_redirections_arguments t0 ts _ _ he

/-- C14, the code on the tokens `>`, `f`: `construct_command` returns a Leaf
whose argument list is empty (its stdout target is `f` and its builtin tag 0):
`extract_redirections` copies no token and the builder never looks at the
number of copied tokens.  Executing the Leaf forks a child that redirects its
output and calls `execvp` with no program name. -/
theorem leaf_with_empty_arguments :
    construct_command [">".toList, "f".toList] =
        some (command.mk (some ⟨none, some "f".toList, none, [], 0⟩) [] none none) ∧
      (command.mk (some ⟨none, some "f".toList, none, [], 0⟩) [] none none).leaves =
        [⟨none, some "f".toList, none, [], 0⟩] ∧
      (execute_line calm_world (WaitStatus.exited 0)
        (command.mk (some ⟨none, some "f".toList, none, [], 0⟩) [] none none) []).2 =
        [Event.fork, Event.redirect 1 "f".toList, Event.exec []] := by
  refine ⟨rfl, rfl, ?_⟩
  decide

/-! ## Builtin leaves -/

/-- C16, counterexample: the line `set X 1 ; cmd` is built as
Sequence(Leaf tagged `BUILTIN_SET`, Leaf `cmd`); executing it forks a child for
the left side in which no handler is called, then forks a child that launches
`cmd`: the trace has no builtin event, the assignment is not performed. -/
theorem builtin_operand_is_ignored :
    construct_command ["set".toList, "X".toList, "1".toList, ";".toList, "cmd".toList] =
        some (command.mk none [';']
          (some (command.mk
            (some ⟨none, none, none, ["set".toList, "X".toList, "1".toList], BUILTIN_SET⟩)
            [] none none))
          (some (command.mk (some (external ["cmd".toList])) [] none none))) ∧
      execute_line calm_world (WaitStatus.exited 0)
        (command.mk none [';']
          (some (command.mk
            (some ⟨none, none, none, ["set".toList, "X".toList, "1".toList], BUILTIN_SET⟩)
            [] none none))
          (some (command.mk (some (external ["cmd".toList])) [] none none))) [] =
        (Flow.returns 0, [Event.fork, Event.fork, Event.exec ["cmd".toList]]) :=
  ⟨rfl, rfl⟩

/-- C16, amended: a Leaf tagged as the builtin `cd`, `set` or `unset`.  When
the Leaf is the whole line, `main` calls `execute_simple_command`, which calls
the corresponding handler in the shell's own process and forks nothing (the
only event is the handler call).  When the Leaf is an operand of an operator
node, it is executed by `execute_complex_command` in the child forked for that
side, where a builtin is ignored: no handler is called, nothing is logged, the
call returns 0 and the child then ends with `exit(EXIT_FAILURE)`. -/
theorem execute_builtin_leaf (w : World) (k : WaitStatus) (s : simple_command)
    (op : CString) (a b : Option command) (tr : List Event)
    (hb : s.builtin = BUILTIN_CD ∨ s.builtin = BUILTIN_SET ∨ s.builtin = BUILTIN_UNSET) :
    execute_line w k (command.mk (some s) op a b) tr =
        (Flow.returns (w.builtin_result tr s.builtin s.tokens),
          tr ++ [Event.builtin s.builtin s.tokens]) ∧
      execute_complex_command w k (command.mk (some s) op a b) tr = (Flow.returns 0, tr) ∧
      child_status (execute_complex_command w k (command.mk (some s) op a b) tr).1 =
        WaitStatus.exited EXIT_FAILURE := by
  have hne : s.builtin ≠ 0 := by
    rcases hb with h | h | h <;> rw [h] <;> decide
  have hleaf : execute_complex_command w k (command.mk (some s) op a b) tr =
      (Flow.returns 0, tr) := by
    rw [execute_leaf]
    simp [hne]
  refine ⟨?_, hleaf, ?_⟩
  · simp only [execute_line, command.scmd, execute_simple_command]
    rcases hb with h | h | h
    · simp [h]
    · have h1 : BUILTIN_SET ≠ BUILTIN_CD := by decide
      simp [h, h1]
    · have h1 : BUILTIN_UNSET ≠ BUILTIN_CD := by decide
      have h2 : BUILTIN_UNSET ≠ BUILTIN_SET := by decide
      simp [h, h1, h2]
  · rw [hleaf]
    rfl

/-- Witness for the amended C16 on the Leaf of `set X 1`. -/
theorem execute_builtin_leaf_witness :
    execute_line calm_world (WaitStatus.exited 0)
        (command.mk (some ⟨none, none, none, ["set".toList, "X".toList, "1".toList], BUILTIN_SET⟩)
          [] none none) [] =
        (Flow.returns 0,
          [] ++ [Event.builtin BUILTIN_SET ["set".toList, "X".toList, "1".toList]]) ∧
      execute_complex_command calm_world (WaitStatus.exited 0)
        (command.mk (some ⟨none, none, none, ["set".toList, "X".toList, "1".toList], BUILTIN_SET⟩)
          [] none none) [] = (Flow.returns 0, []) ∧
      child_status (execute_complex_command calm_world (WaitStatus.exited 0)
        (command.mk (some ⟨none, none, none, ["set".toList, "X".toList, "1".toList], BUILTIN_SET⟩)
          [] none none) []).1 = WaitStatus.exited EXIT_FAILURE :=
  execute_builtin_leaf calm_world (WaitStatus.exited 0)
    ⟨none, none, none, ["set".toList, "X".toList, "1".toList], BUILTIN_SET⟩ [] none none []
    (Or.inr (Or.inl rfl))

/-! ## The quoted-span flag across tokens -/

theorem quote_parity_append (a b : List Char) :
    quote_parity (a ++ b) = xor (quote_parity a) (quote_parity b) := by
  induction a with
  | nil => simp [quote_parity]
  | cons c cs ih =>
    by_cases hc : c = '"'
    · simp [quote_parity, hc, ih]
    · simp [quote_parity, hc, ih]

theorem scan_token_flag (n : Nat) :
    ∀ line : List Char, line.length ≤ n → ∀ in_str : Bool,
      (scan_token line in_str).2.2 = xor in_str (quote_parity (scan_token line in_str).1) := by
  induction n using Nat.strong_induction_on with
  | _ n ih =>
    intro line hlen in_str
    match line, hlen with
    | [], _ => simp [scan_token, quote_parity]
    | [c], _ =>
      by_cases hd : (c = NUL || is_delimiter c) = true
      · simp [scan_token, hd, quote_parity]
      · simp only [Bool.not_eq_true] at hd
        by_cases hq : c = '"'
        · subst hq
          cases in_str <;> simp [scan_token, hd, quote_parity]
        · cases in_str <;> simp [scan_token, hd, quote_parity, hq]
    | c :: x :: rest, hlen =>
      by_cases hd : (c = NUL || is_delimiter c) = true
      · rw [scan_token]
        simp [hd, quote_parity]
      · simp only [Bool.not_eq_true] at hd
        have ih1 := ih (x :: rest).length (by simp at hlen ⊢; omega) (x :: rest) (le_refl _)
        have ih2 := ih rest.length (by simp at hlen; omega) rest (le_refl _)
        have hsp : (' ' : Char) ≠ '"' := by decide
        rw [scan_token]
        simp only [hd, Bool.false_eq_true, if_false]
        by_cases hs : (x = ' ' && (if c = '"' then !in_str else in_str)) = true
        · simp only [hs, if_true]
          rw [ih2]
          have hx : x = ' ' := by
            simp only [Bool.and_eq_true, decide_eq_true_eq] at hs
            exact hs.1
          subst hx
          by_cases hq : c = '"'
          · subst hq
            cases in_str <;> simp [quote_parity]
          · cases in_str <;> simp [quote_parity, hq]
        · simp only [hs, Bool.false_eq_true, if_false]
          rw [ih1]
          by_cases hq : c = '"'
          · subst hq
            cases in_str <;> simp [quote_parity]
          · cases in_str <;> simp [quote_parity, hq]

/-- C17, counterexample: on the line `"a<TAB>b c` the first token `"a` ends at
the tab while the quote is open; the second token is scanned with `in_str`
still set, so the space after `b` is passed over and the tokens are `"a` and
`b c`, although no `"` precedes that space within the second token. -/
theorem open_quote_reaches_next_token :
    parse_line "\"a\tb c".toList = ["\"a".toList, "b c".toList] ∧
      quote_parity "b".toList = false := by
  decide

/-- C17, amended: the quoted-span state persists across tokens.  Scanning a
token from the state `in_str` ends in the state `in_str` changed once for every
`"` of the token; a round of the outer loop that stores a token hands that
state to the next round.  Hence, starting from 0 at the head of the line,
every token is scanned in the state given by the parity of the number of `"`
in all the tokens before it (`prev`). -/
theorem in_str_persists (rounds : Nat) (line prev : List Char) :
    (scan_token line (quote_parity prev)).2.2 =
        quote_parity (prev ++ (scan_token line (quote_parity prev)).1) ∧
      (parse_loop (rounds + 1) line (quote_parity prev) = [] ∨
        ∃ (c : Char) (rest : List Char), skip_delimiters line = c :: rest ∧
          parse_loop (rounds + 1) line (quote_parity prev) =
            (scan_token (c :: rest) (quote_parity prev)).1 ::
              parse_loop rounds (scan_token (c :: rest) (quote_parity prev)).2.1
                (quote_parity (prev ++ (scan_token (c :: rest) (quote_parity prev)).1))) := by
  have hflag : ∀ l : List Char, (scan_token l (quote_parity prev)).2.2 =
      quote_parity (prev ++ (scan_token l (quote_parity prev)).1) := by
    intro l
    rw [quote_parity_append]
    exact scan_token_flag l.length l (le_refl _) _
  refine ⟨hflag line, ?_⟩
  cases line with
  | nil => left; simp [parse_loop]
  | cons c0 cs =>
    by_cases h0 : c0 = NUL
    · left; simp [parse_loop, h0]
    · cases hs : skip_delimiters (c0 :: cs) with
      | nil => left; simp [parse_loop, h0, hs]
      | cons c rest =>
        by_cases h1 : c = NUL
        · left; simp [parse_loop, h0, hs, h1]
        · right
          refine ⟨c, rest, rfl, ?_⟩
          rw [parse_loop]
          simp only [h0, if_false, hs, h1]
          rw [hflag (c :: rest)]

/-! ## Reads of the two passes stay inside the token -/

theorem char_at_of_le (token : CString) (s : Nat) (h : s ≤ token.length) :
    ∃ c, char_at token s = some c := by
  unfold char_at
  have hlt : s < (token ++ [NUL]).length := by simp; omega
  exact ⟨(token ++ [NUL])[s], List.getElem?_eq_getElem hlt⟩

theorem char_at_lt_of_ne (token : CString) (s : Nat) (c : Char)
    (h : char_at token s = some c) (hc : c ≠ NUL) : s < token.length := by
  unfold char_at at h
  by_contra hge
  have hge : token.length ≤ s := Nat.le_of_not_lt hge
  rw [List.getElem?_append_right hge] at h
  cases hk : s - token.length with
  | zero =>
    rw [hk] at h
    simp at h
    exact hc h.symm
  | succ m =>
    rw [hk] at h
    simp at h

theorem capture_loop_in_range (token : CString) (steps : Nat) :
    ∀ (s : Nat) (v : List Char), s < token.length → token.length - s ≤ steps →
      capture_loop token steps s v = .write_out_of_range ∨
        ∃ (s1 : Nat) (name : List Char),
          capture_loop token steps s v = .ok (s1, name) ∧ s ≤ s1 ∧ s1 < token.length := by
  induction steps with
  | zero => intro s v hs hst; omega
  | succ k ih =>
    intro s v hs hst
    obtain ⟨c, hc⟩ := char_at_of_le token (s + 1) hs
    rw [capture_loop, hc]
    by_cases hv : VALID_VAR c = true
    · have hcN : c ≠ NUL := by
        intro e
        rw [e] at hv
        exact absurd hv (by decide)
      have hlt := char_at_lt_of_ne token (s + 1) c hc hcN
      by_cases hl : v.length < 128
      · simp only [hv, if_true, hl]
        rcases ih (s + 1) (v ++ [c]) hlt (by omega) with h | ⟨s1, name, h1, h2, h3⟩
        · exact Or.inl h
        · exact Or.inr ⟨s1, name, h1, by omega, h3⟩
      · simp [hv, hl]
    · simp only [hv, Bool.false_eq_true, if_false]
      exact Or.inr ⟨s, v, rfl, le_refl _, hs⟩

theorem expand_loop_in_range (env : Env) (token : CString) (steps : Nat) :
    ∀ (s : Nat) (d : List Char), s ≤ token.length → token.length - s < steps →
      expand_loop env token steps s d = .write_out_of_range ∨
        ∃ out, expand_loop env token steps s d = .ok out := by
  induction steps with
  | zero => intro s d _ hst; omega
  | succ k ih =>
    intro s d hs hst
    obtain ⟨c, hc⟩ := char_at_of_le token s hs
    rw [expand_loop, hc]
    by_cases h0 : c = NUL
    · by_cases hd : d.length < 1024
      · simp [h0, hd]
      · simp [h0, hd]
    · have hlt := char_at_lt_of_ne token s c hc h0
      obtain ⟨b, hb⟩ := char_at_of_le token (s + 1) hlt
      simp only [h0, if_false, hb]
      by_cases h1 : c = '$'
      · simp only [h1, if_true]
        by_cases hv : VALID_VAR_BEGIN b = true
        · simp only [hv, if_true]
          rcases capture_loop_in_range token (token.length + 1) s [] hlt (by omega) with
            h | ⟨s1, name, h2, h3, h4⟩
          · simp [h]
          · simp only [h2]
            by_cases hn : name.length < 128
            · simp only [hn, if_true]
              cases env name with
              | none => exact ih (s1 + 1) d h4 (by omega)
              | some value =>
                simp only []
                by_cases hw : d.length + value.length < 1024
                · simp only [hw, if_true]
                  exact ih (s1 + 1) (d ++ value) h4 (by omega)
                · simp [hw]
            · simp [hn]
        · simp only [hv, Bool.false_eq_true, if_false]
          exact ih (s + 1) d hlt (by omega)
      · simp only [h1, if_false]
        by_cases h2 : c = '\\'
        · simp only [h2, if_true]
          by_cases he : (b = '$' || b = ' ' || b = '\\') = true
          · have hbN : b ≠ NUL := by
              intro e
              rw [e] at he
              exact absurd he (by decide)
            have hlt2 := char_at_lt_of_ne token (s + 1) b hb hbN
            simp only [he, if_true]
            by_cases hd : d.length < 1024
            · simp only [hd, if_true]
              exact ih (s + 2) (d ++ [b]) hlt2 (by omega)
            · simp [hd]
          · simp only [he, Bool.false_eq_true, if_false]
            exact ih (s + 1) d hlt (by omega)
        · simp only [h2, if_false]
          by_cases hd : d.length < 1024
          · simp only [hd, if_true]
            exact ih (s + 1) (d ++ [c]) hlt (by omega)
          · simp [hd]

theorem expand_token_in_range (env : Env) (token : CString) :
    expand_token env token = .write_out_of_range ∨ ∃ out, expand_token env token = .ok out := by
  unfold expand_token
  split
  · exact expand_loop_in_range env token (token.length + 1) 0 [] (Nat.zero_le _) (by omega)
  · exact Or.inr ⟨token, rfl⟩

theorem collect_in_range {α : Type} (l : List (Outcome α))
    (h : ∀ x ∈ l, x = .write_out_of_range ∨ ∃ a, x = .ok a) :
    collect l = .write_out_of_range ∨ ∃ as, collect l = .ok as := by
  induction l with
  | nil => exact Or.inr ⟨[], rfl⟩
  | cons x xs ih =>
    have hx := h x (List.mem_cons_self _ _)
    have hxs := ih (fun y hy => h y (List.mem_cons_of_mem _ hy))
    rcases hx with hx | ⟨a, hx⟩
    · subst hx
      exact Or.inl rfl
    · subst hx
      rcases hxs with hxs | ⟨as, hxs⟩
      · left; simp [collect, hxs]
      · right; exact ⟨a :: as, by simp [collect, hxs]⟩

theorem collect_dequote (tokens : List CString) :
    collect (tokens.map dequote) = .ok (tokens.map dequote_ref) := by
  induction tokens with
  | nil => rfl
  | cons t ts ih => simp [collect, dequote_eq_ref, ih]

theorem process_tokens_in_range (env : Env) (tokens : List CString) :
    process_tokens env tokens = .write_out_of_range ∨
      ∃ out, process_tokens env tokens = .ok out := by
  unfold process_tokens
  rw [collect_dequote]
  simp only
  have h := collect_in_range ((tokens.map dequote_ref).map (expand_token env)) (by
    intro x hx
    obtain ⟨t, _, rfl⟩ := List.mem_map.mp hx
    exact expand_token_in_range env t)
  rcases h with h | ⟨us, h⟩
  · left; rw [h]
  · right; rw [h]; exact ⟨_, rfl⟩

/-- C19: for every token (any string, also the empty one and one that ends in
a backslash or in `$`) both passes of `process_tokens` read the token only at
indices up to its terminator and both loops end within their step budget.  The
first pass always produces its output; the second pass produces its output
unless a write would pass the end of `varname[128]` or `newtok[1024]`; the
outcomes "read out of range" and "out of steps" never occur, for one token and
for a whole token list. -/
theorem process_tokens_reads_in_range (env : Env) (token : CString) (tokens : List CString) :
    (∃ out, dequote token = .ok out) ∧
      (expand_token env token = .write_out_of_range ∨ ∃ out, expand_token env token = .ok out) ∧
      (expand_token env token ≠ .read_out_of_range ∧ expand_token env token ≠ .out_of_steps) ∧
      (process_tokens env tokens ≠ .read_out_of_range ∧
        process_tokens env tokens ≠ .out_of_steps) := by
  refine ⟨⟨dequote_ref token, dequote_eq_ref token⟩, expand_token_in_range env token, ?_, ?_⟩
  · rcases expand_token_in_range env token with h | ⟨out, h⟩ <;> rw [h] <;> simp
  · rcases process_tokens_in_range env tokens with h | ⟨out, h⟩ <;> rw [h] <;> simp

/-! ## The redirection targets of a Leaf -/

theorem last_target_cons (ops : List CString) (x : Item) (rest : List Item) :
    last_target ops (x :: rest) =
      match last_target ops rest with
      | some y => some y
      | none => x.target ops := by
  unfold last_target
  rw [List.filterMap_cons]
  cases hx : x.target ops with
  | none =>
    simp only
    cases (List.filterMap (Item.target ops) rest).getLast? <;> rfl
  | some b =>
    simp only
    rw [List.getLast?_cons]
    cases (List.filterMap (Item.target ops) rest).getLast? <;> rfl

theorem extract_scan_plain_cons (w : CString) (T : List CString) (cmd : simple_command)
    (hw : is_redirection w = false) : extract_scan (w :: T) cmd = extract_scan T cmd := by
  cases T with
  | nil => simp [extract_scan, redirection_step_plain w none cmd hw]
  | cons x xs => simp [extract_scan, redirection_step_plain w (some x) cmd hw]

theorem redirection_step_fields (op t : CString) (cmd : simple_command)
    (hr : is_redirection op = true) :
    ∃ cmd1 : simple_command, redirection_step op (some t) cmd = some (cmd1, true) ∧
      cmd1.inp = (if op ∈ [['<']] then some t else cmd.inp) ∧
      cmd1.out = (if op ∈ [['>'], ['&', '>']] then some t else cmd.out) ∧
      cmd1.err = (if op ∈ [['2', '>'], ['&', '>']] then some t else cmd.err) := by
  simp only [is_redirection, Bool.or_eq_true, decide_eq_true_eq] at hr
  rcases hr with ((hr | hr) | hr) | hr <;> subst hr
  · exact ⟨{ cmd with inp := some t }, by simp [redirection_step], by simp, by simp, by simp⟩
  · exact ⟨{ cmd with out := some t }, by simp [redirection_step], by simp, by simp, by simp⟩
  · exact ⟨{ cmd with err := some t }, by simp [redirection_step], by simp, by simp, by simp⟩
  · exact ⟨{ cmd with out := some t, err := some t }, by simp [redirection_step], by simp,
      by simp, by simp⟩

theorem extract_scan_items (items : List Item) :
    (∀ p ∈ items, p.wf = true) → ∀ cmd : simple_command,
      ∃ cmd1 : simple_command, extract_scan (items.flatMap Item.toks) cmd = some cmd1 ∧
        cmd1.inp = (match last_target [['<']] items with
          | some y => some y
          | none => cmd.inp) ∧
        cmd1.out = (match last_target [['>'], ['&', '>']] items with
          | some y => some y
          | none => cmd.out) ∧
        cmd1.err = (match last_target [['2', '>'], ['&', '>']] items with
          | some y => some y
          | none => cmd.err) := by
  induction items with
  | nil =>
    intro _ cmd
    exact ⟨cmd, by simp [extract_scan], by simp [last_target], by simp [last_target],
      by simp [last_target]⟩
  | cons x rest ih =>
    intro hwf cmd
    have hx : x.wf = true := hwf x (List.mem_cons_self _ _)
    have hrest : ∀ p ∈ rest, p.wf = true := fun p hp => hwf p (List.mem_cons_of_mem _ hp)
    cases x with
    | arg w =>
      have hw : is_redirection w = false := by
        simp only [Item.wf, Bool.and_eq_true, Bool.not_eq_true'] at hx
        exact hx.1
      obtain ⟨cmd1, e0, e1, e2, e3⟩ := ih hrest cmd
      refine ⟨cmd1, ?_, ?_, ?_, ?_⟩
      · simp only [List.flatMap_cons, Item.toks, List.singleton_append]
        rw [extract_scan_plain_cons w _ cmd hw]
        exact e0
      · rw [last_target_cons, e1]
        cases last_target [['<']] rest <;> simp [Item.target]
      · rw [last_target_cons, e2]
        cases last_target [['>'], ['&', '>']] rest <;> simp [Item.target]
      · rw [last_target_cons, e3]
        cases last_target [['2', '>'], ['&', '>']] rest <;> simp [Item.target]
    | redirect op t =>
      have hr : is_redirection op = true := by
        simp only [Item.wf, Bool.and_eq_true] at hx
        exact hx.1
      obtain ⟨c1, f0, f1, f2, f3⟩ := redirection_step_fields op t cmd hr
      obtain ⟨cmd1, e0, e1, e2, e3⟩ := ih hrest c1
      refine ⟨cmd1, ?_, ?_, ?_, ?_⟩
      · simp only [List.flatMap_cons, Item.toks, List.cons_append, List.nil_append]
        rw [extract_scan, f0]
        simpa using e0
      · rw [last_target_cons, e1, f1]
        cases last_target [['<']] rest with
        | some y => rfl
        | none => by_cases hop : op ∈ [['<']] <;> simp only [Item.target, hop, if_true, if_false]
      · rw [last_target_cons, e2, f2]
        cases last_target [['>'], ['&', '>']] rest with
        | some y => rfl
        | none =>
          by_cases hop : op ∈ [['>'], ['&', '>']] <;>
            simp only [Item.target, hop, if_true, if_false]
      · rw [last_target_cons, e3, f3]
        cases last_target [['2', '>'], ['&', '>']] rest with
        | some y => rfl
        | none =>
          by_cases hop : op ∈ [['2', '>'], ['&', '>']] <;>
            simp only [Item.target, hop, if_true, if_false]

/-- C21: for every operator-free token list that `construct_command` accepts,
the list is a sequence of plain arguments and (redirection operator, target)
pairs, and in the Leaf `stdin_path` is the target of the last `<` pair,
`stdout_path` the target of the last `>` or `&>` pair and `stderr_path` the
target of the last `2>` or `&>` pair, each absent when there is no such pair;
the lone pair `&> f` gives `stdout_path = stderr_path = f` and no
`stdin_path`. -/
theorem construct_command_redirection_targets (tokens : List CString) (hne : tokens ≠ [])
    (hop : ∀ t ∈ tokens, is_operator t = false)
    (hacc : construct_command tokens ≠ none) :
    (∃ (s : simple_command) (items : List Item),
        construct_command tokens = some (command.mk (some s) [] none none) ∧
        tokens = items.flatMap Item.toks ∧ (∀ p ∈ items, p.wf = true) ∧
        s.inp = last_target [['<']] items ∧
        s.out = last_target [['>'], ['&', '>']] items ∧
        s.err = last_target [['2', '>'], ['&', '>']] items) ∧
      construct_command [['&', '>'], ['f']] =
        some (command.mk (some ⟨none, some ['f'], some ['f'], [], 0⟩) [] none none) := by
  refine ⟨?_, rfl⟩
  have hd : dangling_redirection tokens = false := by
    cases h : dangling_redirection tokens with
    | false => rfl
    | true => exact absurd ((construct_command_run_none_iff tokens hne hop).mpr h) hacc
  obtain ⟨items, e1, e2, _⟩ := extract_copy_items tokens.length tokens (le_refl _) hop hd
  match tokens, hne, hop, e1 with
  | t0 :: ts, _, hop, e1 =>
    have hc : is_complex_command (t0 :: ts) = false :=
      (is_complex_command_eq_false_iff _).mpr hop
    obtain ⟨cmd1, f0, f1, f2, f3⟩ := extract_scan_items items e2
      { inp := none, out := none, err := none, tokens := [], builtin := is_builtin t0 }
    rw [← e1] at f0
    refine ⟨{ cmd1 with tokens := extract_copy (t0 :: ts) }, items, ?_, e1, e2, ?_, ?_, ?_⟩
    · rw [construct_command_simple t0 ts hc]
      simp [extract_redirections, f0]
    · rw [f1]
      cases last_target [['<']] items <;> rfl
    · rw [f2]
      cases last_target [['>'], ['&', '>']] items <;> rfl
    · rw [f3]
      cases last_target [['2', '>'], ['&', '>']] items <;> rfl

/-- Witness for C21 on the tokens `cat < a > b < c`: stdin is read from `c`,
the target of the last `<`. -/
theorem construct_command_redirection_targets_witness :
    (∃ (s : simple_command) (items : List Item),
        construct_command ["cat".toList, "<".toList, "a".toList, ">".toList, "b".toList,
          "<".toList, "c".toList] = some (command.mk (some s) [] none none) ∧
        ["cat".toList, "<".toList, "a".toList, ">".toList, "b".toList, "<".toList,
          "c".toList] = items.flatMap Item.toks ∧ (∀ p ∈ items, p.wf = true) ∧
        s.inp = last_target [['<']] items ∧
        s.out = last_target [['>'], ['&', '>']] items ∧
        s.err = last_target [['2', '>'], ['&', '>']] items) ∧
      construct_command [['&', '>'], ['f']] =
        some (command.mk (some ⟨none, some ['f'], some ['f'], [], 0⟩) [] none none) :=
  construct_command_redirection_targets
    ["cat".toList, "<".toList, "a".toList, ">".toList, "b".toList, "<".toList, "c".toList]
    (by decide) (by decide) (by
      intro h
      have : construct_command ["cat".toList, "<".toList, "a".toList, ">".toList, "b".toList,
          "<".toList, "c".toList] =
          some (command.mk (some ⟨some "c".toList, some "b".toList, none, ["cat".toList], 0⟩)
            [] none none) := rfl
      rw [this] at h
      exact absurd h (by simp))

/-! ## The shape of the tree: nesting on the right only -/

theorem right_nested_node (op : CString) (a b : Option command) :
    (command.mk none op a b).right_nested =
      ((match a with
        | none => true
        | some l => l.is_leaf) &&
       (match b with
        | none => true
        | some r => r.right_nested)) := by
  cases a <;> cases b <;> simp [command.right_nested]

theorem construct_aux_run_is_leaf (fuel : Nat) (tokens : List CString) (c : command)
    (hop : ∀ t ∈ tokens, is_operator t = false)
    (h : construct_aux fuel tokens = some c) : c.is_leaf = true := by
  cases fuel with
  | zero => simp [construct_aux] at h
  | succ f =>
    cases tokens with
    | nil => simp [construct_aux] at h
    | cons t0 ts =>
      have hc : is_complex_command (t0 :: ts) = false :=
        (is_complex_command_eq_false_iff _).mpr hop
      rw [construct_aux_cons] at h
      simp only [hc, Bool.false_eq_true, if_false] at h
      cases he : extract_redirections (t0 :: ts)
          { inp := none, out := none, err := none, tokens := [],
            builtin := is_builtin t0 } with
      | none => simp [he] at h
      | some s1 =>
        simp only [he, Option.some.injEq] at h
        subst h
        rfl

theorem construct_aux_right_nested (fuel : Nat) :
    ∀ (tokens : List CString) (c : command), construct_aux fuel tokens = some c →
      c.right_nested = true := by
  induction fuel with
  | zero => intro tokens c h; simp [construct_aux] at h
  | succ f ih =>
    intro tokens c h
    cases tokens with
    | nil => simp [construct_aux] at h
    | cons t0 ts =>
      rw [construct_aux_cons] at h
      by_cases hc : is_complex_command (t0 :: ts) = true
      · simp only [hc, if_true] at h
        cases hsp : split_operator (t0 :: ts) with
        | none => simp [hsp] at h
        | some v =>
          obtain ⟨t1, op, t2⟩ := v
          obtain ⟨_, _, hl⟩ := split_operator_eq_some _ _ _ _ hsp
          simp only [hsp, Option.some.injEq] at h
          subst h
          rw [right_nested_node, Bool.and_eq_true]
          constructor
          · cases h1 : construct_aux f t1 with
            | none => rfl
            | some c1 => exact construct_aux_run_is_leaf f t1 c1 hl h1
          · cases h2 : construct_aux f t2 with
            | none => rfl
            | some c2 => exact ih t2 c2 h2
      · simp only [hc, Bool.false_eq_true, if_false] at h
        cases he : extract_redirections (t0 :: ts)
            { inp := none, out := none, err := none, tokens := [],
              builtin := is_builtin t0 } with
        | none => simp [he] at h
        | some s1 =>
          simp only [he, Option.some.injEq] at h
          subst h
          rfl

/-- C22: in every tree that `construct_command` returns, the left child of
every Operator node is absent or a Leaf, nesting happens on the right only;
the tokens `a && b ; c` are built as And(`a`, Sequence(`b`, `c`)). -/
theorem construct_command_right_nested (tokens : List CString) (c : command)
    (h : construct_command tokens = some c) :
    c.right_nested = true ∧
      construct_command ["a".toList, "&&".toList, "b".toList, ";".toList, "c".toList] =
        some (command.mk none ['&', '&']
          (some (command.mk (some (external ["a".toList])) [] none none))
          (some (command.mk none [';']
            (some (command.mk (some (external ["b".toList])) [] none none))
            (some (command.mk (some (external ["c".toList])) [] none none))))) :=
  ⟨construct_aux_right_nested tokens.length tokens c h, rfl⟩

/-- Witness for C22 on the tokens `a && b ; c`. -/
theorem construct_command_right_nested_witness :
    (command.mk none ['&', '&']
        (some (command.mk (some (external ["a".toList])) [] none none))
        (some (command.mk none [';']
          (some (command.mk (some (external ["b".toList])) [] none none))
          (some (command.mk (some (external ["c".toList])) [] none none))))).right_nested =
        true ∧
      construct_command ["a".toList, "&&".toList, "b".toList, ";".toList, "c".toList] =
        some (command.mk none ['&', '&']
          (some (command.mk (some (external ["a".toList])) [] none none))
          (some (command.mk none [';']
            (some (command.mk (some (external ["b".toList])) [] none none))
            (some (command.mk (some (external ["c".toList])) [] none none))))) :=
  construct_command_right_nested
    ["a".toList, "&&".toList, "b".toList, ";".toList, "c".toList] _ rfl

end Shsh
